import Mathlib

/-!
# Tomahawk: import writer, block iterator and textual output writer

A shallow embedding of

* `ImportWriter::add` (VCF and BCF overloads), `ImportWriter::flush` and
  `ImportWriter::DetermineFlushLimit` from `src/tomahawk/import_writer.cpp`,
* `OutputWriterStdOut::add`, `flush` and the three `operator<<`, and
  `OutputWriterInterface::operator+=`, from `src/io/output_writer.h`,
* `TomahawkBlockIterator` from `src/tomahawk/TomahawkBlockIterator.h`, and
* `TomahawkCalc::CalculateWrapper` and `TomahawkCalc::WriteTwoHeaderBinary`
  from `tomahawk/TomahawkCalc.cpp`.

Writer objects become records, member functions become functions from a
record to a result and a new record.  Classes that are only used by these
files (the genotype encoder, the compressor, the buffers, the index entries,
the input lines) are declared in headers that are not part of the sources;
what the embedded functions need of them is either a field of
`Collaborators` (an arbitrary function) or a small definition whose doc
comment says where it comes from.
-/

namespace Tomahawk

/-! ## Data model of the ingestion path -/

/-- `BasicBuffer`, seen through its live bytes `buffer[0 .. n_chars)`.
The class is declared outside the sources; the writer uses its length
counter `n_chars`, `size()` and indexing. Bytes are natural numbers. -/
structure BasicBuffer where
  buffer : List Nat
deriving DecidableEq

namespace BasicBuffer

/-- Length counter of the buffer. -/
def n_chars (b : BasicBuffer) : Nat := b.buffer.length

/-- `size()` returns the length counter. -/
def size (b : BasicBuffer) : Nat := b.n_chars

/-- The assignment `buffer.n_chars = n` for `n` not above the current
length (the only way the writer uses it): the bytes from `n` on are no
longer live. -/
def set_n_chars (b : BasicBuffer) (n : Nat) : BasicBuffer := ⟨b.buffer.take n⟩

/-- Bytes emitted at the end of the live region. -/
def emit (b : BasicBuffer) (bytes : List Nat) : BasicBuffer := ⟨b.buffer ++ bytes⟩

/-- `reset()` sets the length counter to zero. -/
def reset (_b : BasicBuffer) : BasicBuffer := ⟨[]⟩

end BasicBuffer

/-- `Totempole::TotempoleEntry`, the in-progress index entry of the block
being staged: the fields `add` and `flush` read or write. The struct is
declared outside the sources, so the fields are unbounded naturals. -/
structure TotempoleEntry where
  byte_offset : Nat
  byte_offset_end : Nat
  min_position : Nat
  max_position : Nat
  n_variants : Nat
  uncompressed_size : Nat
deriving DecidableEq

namespace TotempoleEntry

/-- Modelled from the spec: `TotempoleEntry::operator++` is declared outside
the sources; an accepted variant extends the entry's variant count by one. -/
def inc (e : TotempoleEntry) : TotempoleEntry := { e with n_variants := e.n_variants + 1 }

/-- Modelled from the spec: `TotempoleEntry::size()` is declared outside the
sources; it is the entry's variant count. -/
def size (e : TotempoleEntry) : Nat := e.n_variants

/-- Modelled from the spec: `TotempoleEntry::reset()` is declared outside the
sources; a freshly reset entry has no variants, no position range, no
offsets and no size. -/
def reset (_e : TotempoleEntry) : TotempoleEntry := ⟨0, 0, 0, 0, 0, 0⟩

end TotempoleEntry

/-- The output file stream: the bytes of the file and the put position.
The stream is assumed to stay in the good state. -/
structure ofstream where
  data : List Nat
  pos : Nat
deriving DecidableEq

namespace ofstream

/-- `tellp()`: the put position. -/
def tellp (f : ofstream) : Nat := f.pos

/-- A write of `bytes` at the put position: bytes already there are
overwritten, a gap past the end of the file is zero-filled, and the put
position moves past the written bytes. -/
def write (f : ofstream) (bytes : List Nat) : ofstream :=
  { data := f.data.take f.pos ++ List.replicate (f.pos - f.data.length) 0 ++ bytes
              ++ f.data.drop (f.pos + bytes.length)
    pos := f.pos + bytes.length }

end ofstream

/-- The configured filter: the two floors `add` compares against. `F` is the
floating-point type of the stored statistics. -/
structure filter_type (F : Type) where
  HWE_P : F
  MAF : F
deriving DecidableEq

/-- `MetaEntryBase`: the two stored statistics `add` reads back from the
meta buffer. -/
structure MetaEntryBase (F : Type) where
  HWE_P : F
  MAF : F
deriving DecidableEq

/-- `VCF::VCFLine`: a parsed text line, its position and its per-sample
genotype calls. -/
structure VCFLine where
  position : Nat
  genotypes : List Nat
deriving DecidableEq

/-- The `body` of a `BCF::BCFEntry`: `POS` is the zero-based position, taken
non-negative. -/
structure BCFEntryBody where
  POS : Nat
deriving DecidableEq

/-- `BCF::BCFEntry`: a parsed binary record. -/
structure BCFEntry where
  body : BCFEntryBody
  genotypes : List Nat
deriving DecidableEq

/-- `VCF::VCFHeader`: the sample count the writer reads. -/
structure VCFHeader where
  samples : Nat
deriving DecidableEq

/-- What the writer calls but the sources do not contain.

* `RunLengthEncode`, `RunLengthEncodeBCF`: the two overloads of
  `GenotypeEncoder::RunLengthEncode`. Given the encoder object, the line and
  the two staging buffers they return the success flag, the encoder object
  afterwards, and the bytes emitted into the meta buffer and into the
  genotype-code buffer (bytes may have been emitted on failure too).
* `getBitWidth`: `GenotypeEncoder::getBitWidth()`.
* `MetaEntryBase_at`: the `reinterpret_cast` of the bytes at a buffer
  position to a `MetaEntryBase`.
* `lt`: the comparison `<` of the floating-point type.
* `Deflate`: the frame `TGZFController::Deflate` builds from the two
  buffers, which `stream << gzip_controller_` then writes. -/
structure Collaborators (E F : Type) where
  RunLengthEncode : E → VCFLine → BasicBuffer → BasicBuffer → Bool × E × List Nat × List Nat
  RunLengthEncodeBCF : E → BCFEntry → BasicBuffer → BasicBuffer → Bool × E × List Nat × List Nat
  getBitWidth : E → Nat
  MetaEntryBase_at : List Nat → MetaEntryBase F
  lt : F → F → Bool
  Deflate : BasicBuffer → BasicBuffer → List Nat

/-- The members of `ImportWriter`. The class is declared outside the sources:
the counters are unbounded naturals, apart from `flush_limit`, an unsigned
32-bit member: `DetermineFlushLimit`, the one function storing to it, keeps
each stored value modulo `2 ^ 32`. `rleController_` is the encoder object,
`stream` the output file. -/
structure ImportWriter (E F : Type) where
  flush_limit : Nat
  n_variants_limit : Nat
  blocksWritten_ : Nat
  variants_written_ : Nat
  largest_uncompressed_block_ : Nat
  filter : filter_type F
  rleController_ : E
  buffer_rle_ : BasicBuffer
  buffer_meta_ : BasicBuffer
  totempole_entry : TotempoleEntry
  vcf_header_ : VCFHeader
  stream : ofstream

namespace ImportWriter

variable {E F : Type}

/-- `ImportWriter::add(const VCF::VCFLine&)`. The two start positions are
`U32` locals; the encoder only emits, so the difference
`n_chars - rle_start_pos` does not wrap, and the quotient `n_runs`, at most
a buffer length, is kept exactly by its `U64` local. -/
def add (env : Collaborators E F) (s : ImportWriter E F) (line : VCFLine) :
    Bool × ImportWriter E F :=
  let meta_start_pos := s.buffer_meta_.n_chars % 2 ^ 32
  let rle_start_pos := s.buffer_rle_.n_chars % 2 ^ 32
  let r := env.RunLengthEncode s.rleController_ line s.buffer_meta_ s.buffer_rle_
  let s1 : ImportWriter E F :=
    { s with rleController_ := r.2.1
             buffer_meta_ := s.buffer_meta_.emit r.2.2.1
             buffer_rle_ := s.buffer_rle_.emit r.2.2.2 }
  let rolled : ImportWriter E F :=
    { s1 with buffer_meta_ := s1.buffer_meta_.set_n_chars meta_start_pos
              buffer_rle_ := s1.buffer_rle_.set_n_chars rle_start_pos }
  if r.1 = false then (false, rolled)
  else
    let n_runs := (s1.buffer_rle_.n_chars - rle_start_pos) / env.getBitWidth s1.rleController_
    let base_meta := env.MetaEntryBase_at (s1.buffer_meta_.buffer.drop meta_start_pos)
    if n_runs = 1 then (false, rolled)
    else if env.lt base_meta.HWE_P s1.filter.HWE_P = true then (false, rolled)
    else if env.lt base_meta.MAF s1.filter.MAF = true then (false, rolled)
    else
      let e0 := s1.totempole_entry
      let e1 := if e0.min_position = 0 then { e0 with min_position := line.position } else e0
      let e2 := { e1 with max_position := line.position }
      (true, { s1 with totempole_entry := e2.inc })

/-- `ImportWriter::add(const BCF::BCFEntry&)`: the same steps with the BCF
overload of the encoder and the position `line.body->POS + 1`. -/
def addBCF (env : Collaborators E F) (s : ImportWriter E F) (line : BCFEntry) :
    Bool × ImportWriter E F :=
  let meta_start_pos := s.buffer_meta_.n_chars % 2 ^ 32
  let rle_start_pos := s.buffer_rle_.n_chars % 2 ^ 32
  let r := env.RunLengthEncodeBCF s.rleController_ line s.buffer_meta_ s.buffer_rle_
  let s1 : ImportWriter E F :=
    { s with rleController_ := r.2.1
             buffer_meta_ := s.buffer_meta_.emit r.2.2.1
             buffer_rle_ := s.buffer_rle_.emit r.2.2.2 }
  let rolled : ImportWriter E F :=
    { s1 with buffer_meta_ := s1.buffer_meta_.set_n_chars meta_start_pos
              buffer_rle_ := s1.buffer_rle_.set_n_chars rle_start_pos }
  if r.1 = false then (false, rolled)
  else
    let n_runs := (s1.buffer_rle_.n_chars - rle_start_pos) / env.getBitWidth s1.rleController_
    let base_meta := env.MetaEntryBase_at (s1.buffer_meta_.buffer.drop meta_start_pos)
    if n_runs = 1 then (false, rolled)
    else if env.lt base_meta.HWE_P s1.filter.HWE_P = true then (false, rolled)
    else if env.lt base_meta.MAF s1.filter.MAF = true then (false, rolled)
    else
      let e0 := s1.totempole_entry
      let e1 := if e0.min_position = 0 then { e0 with min_position := line.body.POS + 1 } else e0
      let e2 := { e1 with max_position := line.body.POS + 1 }
      (true, { s1 with totempole_entry := e2.inc })

/-- Modelled from the spec: `ImportWriter::reset()` is declared outside the
sources; it resets both staging buffers and the in-progress index entry for
the next block. -/
def reset (s : ImportWriter E F) : ImportWriter E F :=
  { s with buffer_rle_ := s.buffer_rle_.reset
           buffer_meta_ := s.buffer_meta_.reset
           totempole_entry := s.totempole_entry.reset }

/-- The body of `ImportWriter::flush` for a non-empty meta buffer, up to but
not including the final `this->reset()`: the writer with the block's index
entry finalized. -/
def flushBlock (env : Collaborators E F) (s : ImportWriter E F) : ImportWriter E F :=
  let e1 := { s.totempole_entry with byte_offset := s.stream.tellp }
  let frame := env.Deflate s.buffer_meta_ s.buffer_rle_
  let stream1 := s.stream.write frame
  let largest :=
    if s.buffer_meta_.size > s.largest_uncompressed_block_ then s.buffer_meta_.size
    else s.largest_uncompressed_block_
  let e2 := { e1 with uncompressed_size := s.buffer_meta_.size }
  let e3 := { e2 with byte_offset_end := stream1.tellp }
  { s with stream := stream1
           largest_uncompressed_block_ := largest
           totempole_entry := e3
           blocksWritten_ := s.blocksWritten_ + 1
           variants_written_ := s.variants_written_ + e3.size }

/-- `ImportWriter::flush`. -/
def flush (env : Collaborators E F) (s : ImportWriter E F) : Bool × ImportWriter E F :=
  if s.buffer_meta_.size = 0 then (false, s)
  else (true, (flushBlock env s).reset)

end ImportWriter

/-! ## Sequences of calls -/

/-- An input line of either kind. -/
inductive Line where
  | vcf (line : VCFLine)
  | bcf (line : BCFEntry)
deriving DecidableEq

/-- The call `add(line)`, resolved to the overload of the line's kind. -/
def ImportWriter.addLine {E F : Type} (env : Collaborators E F) (s : ImportWriter E F) :
    Line → Bool × ImportWriter E F
  | .vcf line => ImportWriter.add env s line
  | .bcf line => ImportWriter.addBCF env s line

/-- The encoder's answer for a line in the writer's current state: what the
call of `RunLengthEncode` inside `add` returns. -/
def ImportWriter.encoded {E F : Type} (env : Collaborators E F) (s : ImportWriter E F) :
    Line → Bool × E × List Nat × List Nat
  | .vcf line => env.RunLengthEncode s.rleController_ line s.buffer_meta_ s.buffer_rle_
  | .bcf line => env.RunLengthEncodeBCF s.rleController_ line s.buffer_meta_ s.buffer_rle_

/-- The position `add` records for a line: `line.position` for VCF input,
`line.body->POS + 1` for BCF input. -/
def Line.recorded : Line → Nat
  | .vcf line => line.position
  | .bcf line => line.body.POS + 1

/-- A call on the writer. -/
inductive Call where
  | add (line : Line)
  | flush
deriving DecidableEq

/-- A writer together with what an observer of its calls has seen:
`accepted` counts the `add` calls that returned true, `sinceFlush` those of
them made after the last `flush` that returned true, `positions` their
recorded positions, `flushes` counts the `flush` calls that returned true and
`finalized` lists the index entry each of them finalized, in flush order. -/
structure Trace (E F : Type) where
  writer : ImportWriter E F
  accepted : Nat
  sinceFlush : Nat
  positions : List Nat
  flushes : Nat
  finalized : List TotempoleEntry

variable {E F : Type}

/-- The observer before any call. -/
def Trace.start (w : ImportWriter E F) : Trace E F :=
  { writer := w, accepted := 0, sinceFlush := 0, positions := [], flushes := 0, finalized := [] }

/-- One call, observed. -/
def exec (env : Collaborators E F) (t : Trace E F) : Call → Trace E F
  | .add line =>
    let r := ImportWriter.addLine env t.writer line
    if r.1 = true then
      { t with writer := r.2, accepted := t.accepted + 1, sinceFlush := t.sinceFlush + 1
               positions := t.positions ++ [line.recorded] }
    else { t with writer := r.2 }
  | .flush =>
    let r := ImportWriter.flush env t.writer
    if r.1 = true then
      { t with writer := r.2, sinceFlush := 0, positions := [], flushes := t.flushes + 1
               finalized := t.finalized ++ [(ImportWriter.flushBlock env t.writer).totempole_entry] }
    else { t with writer := r.2 }

/-- A sequence of calls, observed. -/
def run (env : Collaborators E F) (t : Trace E F) (calls : List Call) : Trace E F :=
  calls.foldl (exec env) t

/-! ## A concrete encoder, for evaluating the model -/

/-- One genotype code per run of equal calls. -/
def runCodes : List Nat → List Nat
  | [] => []
  | [g] => [g]
  | g :: h :: t => if g = h then runCodes (h :: t) else g :: runCodes (h :: t)

/-- A one-byte-per-run encoder: it fails on a line without calls, emits the
run codes into the code buffer and two meta bytes, a constant `HWE_P` of 100
and the number of non-reference calls as `MAF`. -/
def sampleEncode (genotypes : List Nat) : Bool × Unit × List Nat × List Nat :=
  (!genotypes.isEmpty, (), [100, (genotypes.filter (fun g => g != 0)).length], runCodes genotypes)

/-- Collaborators over natural-number statistics: the sample encoder with bit
width 1, meta entries read from two bytes, and a compressor that frames the
two buffers behind a two-byte header. -/
def sampleEnv : Collaborators Unit Nat where
  RunLengthEncode := fun _ line _ _ => sampleEncode line.genotypes
  RunLengthEncodeBCF := fun _ line _ _ => sampleEncode line.genotypes
  getBitWidth := fun _ => 1
  MetaEntryBase_at := fun bytes => ⟨bytes.headD 0, (bytes.drop 1).headD 0⟩
  lt := fun a b => decide (a < b)
  Deflate := fun m r => [m.size, r.size] ++ m.buffer ++ r.buffer

/-- A writer right after construction, with floors `HWE_P = 1` and `MAF = 1`. -/
def sampleWriter : ImportWriter Unit Nat where
  flush_limit := 1000000
  n_variants_limit := 1024
  blocksWritten_ := 0
  variants_written_ := 0
  largest_uncompressed_block_ := 0
  filter := ⟨1, 1⟩
  rleController_ := ()
  buffer_rle_ := ⟨[]⟩
  buffer_meta_ := ⟨[]⟩
  totempole_entry := ⟨0, 0, 0, 0, 0, 0⟩
  vcf_header_ := ⟨3⟩
  stream := ⟨[], 0⟩

end Tomahawk

namespace tomahawk

/-! ## Data model of the result-output path -/

/-- `MetaEntry`: the variant position `add` prints. -/
structure MetaEntry where
  position : Nat
deriving DecidableEq

namespace totempole

/-- `totempole::IndexEntry`: the fields the output writers read or write.
The struct is declared outside the sources; the contig identifier is an
integer, the other fields unbounded naturals. -/
structure IndexEntry where
  contigID : Int
  min_position : Nat
  max_position : Nat
  n_variants : Nat
deriving DecidableEq

end totempole

namespace support

/-- `support::OutputEntrySupport`, the statistics helper: its flag word
`controller` and the text its `addReadble` serializes it to. -/
structure OutputEntrySupport where
  controller : Nat
  readable : List Char
deriving DecidableEq

end support

namespace algorithm

/-- `algorithm::SpinLock`, declared outside the sources: held or free. -/
structure SpinLock where
  held : Bool
deriving DecidableEq

/-- `lock()`, at the point the acquisition succeeds. -/
def SpinLock.lock (_l : SpinLock) : SpinLock := ⟨true⟩

/-- `unlock()`. -/
def SpinLock.unlock (_l : SpinLock) : SpinLock := ⟨false⟩

end algorithm

namespace io

/-- `BasicBuffer` of the output writers, seen through its live characters. -/
structure BasicBuffer where
  buffer : List Char
deriving DecidableEq

namespace BasicBuffer

/-- `size()`: the number of live characters. -/
def size (b : BasicBuffer) : Nat := b.buffer.length

/-- `data()`, read over `size()` characters. -/
def data (b : BasicBuffer) : List Char := b.buffer

/-- `reset()`: no live characters. -/
def reset (_b : BasicBuffer) : BasicBuffer := ⟨[]⟩

/-- `AddReadble(value)`: the text of an integer value is appended. The
method is declared outside the sources; `readable` is the text it gives a
value. -/
def AddReadble (readable : Int → List Char) (b : BasicBuffer) (value : Int) : BasicBuffer :=
  ⟨b.buffer ++ readable value⟩

/-- `buffer += c`: one character is appended. -/
def addChar (b : BasicBuffer) (c : Char) : BasicBuffer := ⟨b.buffer ++ [c]⟩

end BasicBuffer

/-- `support::OutputEntrySupport::addReadble(buffer)`: the helper's text is
appended. -/
def addReadble (helper : support.OutputEntrySupport) (b : BasicBuffer) : BasicBuffer :=
  ⟨b.buffer ++ helper.readable⟩

/-- The members of `OutputWriterInterface` that `OutputWriterStdOut` uses,
with the lock the `spin_lock` pointer refers to and the characters written to
`std::cout` so far. `n_entries`, `bytes_added` and `bytes_written` are `U64`,
`n_progress_count`, `n_blocks`, `l_flush_limit` and `l_largest_uncompressed`
are `U32`. -/
structure OutputWriterStdOut where
  owns_pointers : Bool
  writing_sorted_ : Bool
  writing_sorted_partial_ : Bool
  upper_only_ : Bool
  n_entries : Nat
  n_progress_count : Nat
  n_blocks : Nat
  l_flush_limit : Nat
  l_largest_uncompressed : Nat
  bytes_added : Nat
  bytes_written : Nat
  index_entry : totempole.IndexEntry
  buffer : BasicBuffer
  spin_lock : algorithm.SpinLock
  cout : List Char
deriving DecidableEq

namespace OutputWriterStdOut

/-- `OutputWriterStdOut::flush(lock)`. -/
def flush (s : OutputWriterStdOut) (lock : Bool) : OutputWriterStdOut :=
  if s.buffer.size > 0 then
    let s1 : OutputWriterStdOut := { s with bytes_added := (s.bytes_added + s.buffer.size) % 2 ^ 64 }
    let s2 : OutputWriterStdOut := { s1 with bytes_written := (s1.bytes_written + s1.buffer.size) % 2 ^ 64 }
    let s3 : OutputWriterStdOut := if lock = true then { s2 with spin_lock := s2.spin_lock.lock } else s2
    let s4 : OutputWriterStdOut := { s3 with cout := s3.cout ++ s3.buffer.data }
    let s5 : OutputWriterStdOut := { s4 with n_blocks := (s4.n_blocks + 1) % 2 ^ 32 }
    let s6 : OutputWriterStdOut := if lock = true then { s5 with spin_lock := s5.spin_lock.unlock } else s5
    { s6 with buffer := s6.buffer.reset }
  else s

/-- `OutputWriterStdOut::add`. -/
def add (readable : Int → List Char) (s : OutputWriterStdOut) (meta_a meta_b : MetaEntry)
    (header_a header_b : totempole.IndexEntry) (helper : support.OutputEntrySupport) :
    OutputWriterStdOut :=
  let b := ((s.buffer.AddReadble readable helper.controller).addChar '\t')
  let b := ((b.AddReadble readable header_a.contigID).addChar '\t')
  let b := ((b.AddReadble readable meta_a.position).addChar '\t')
  let b := ((b.AddReadble readable header_b.contigID).addChar '\t')
  let b := ((b.AddReadble readable meta_b.position).addChar '\t')
  let b := ((addReadble helper b).addChar '\n')
  let s1 : OutputWriterStdOut := { s with buffer := b }
  let s2 : OutputWriterStdOut :=
    if s1.upper_only_ = false then
      let b := ((s1.buffer.AddReadble readable helper.controller).addChar '\t')
      let b := ((b.AddReadble readable header_b.contigID).addChar '\t')
      let b := ((b.AddReadble readable meta_b.position).addChar '\t')
      let b := ((b.AddReadble readable header_a.contigID).addChar '\t')
      let b := ((b.AddReadble readable meta_a.position).addChar '\t')
      let b := ((addReadble helper b).addChar '\n')
      { s1 with buffer := b
                n_entries := (s1.n_entries + 1) % 2 ^ 64
                n_progress_count := (s1.n_progress_count + 1) % 2 ^ 32
                index_entry := { s1.index_entry with n_variants := s1.index_entry.n_variants + 1 } }
    else s1
  let s3 : OutputWriterStdOut := { s2 with n_entries := (s2.n_entries + 1) % 2 ^ 64
                                           n_progress_count := (s2.n_progress_count + 1) % 2 ^ 32
                                           index_entry := { s2.index_entry with n_variants := s2.index_entry.n_variants + 1 } }
  if s3.buffer.size > s3.l_flush_limit then s3.flush true else s3

end OutputWriterStdOut

/-! ## The output line, as the format describes it -/

/-- One tab-separated line of the textual result format: the flag, the
contig and position of the first variant, the contig and position of the
second, the statistics, and a line end. -/
def record (readable : Int → List Char) (flag : Nat) (contigA : Int) (positionA : Nat)
    (contigB : Int) (positionB : Nat) (statistics : List Char) : List Char :=
  readable flag ++ ['\t'] ++ readable contigA ++ ['\t'] ++ readable positionA ++ ['\t']
    ++ readable contigB ++ ['\t'] ++ readable positionB ++ ['\t'] ++ statistics ++ ['\n']

/-! ## A concrete writer, for evaluating the model -/

/-- Decimal text of an integer. -/
def decimal (v : Int) : List Char :=
  if v < 0 then '-' :: Nat.toDigits 10 v.natAbs else Nat.toDigits 10 v.natAbs

/-- A writer with an empty buffer, a flush limit of 64 characters and `FLAG`
already on `std::cout`. -/
def sampleStdOut : OutputWriterStdOut where
  owns_pointers := false
  writing_sorted_ := false
  writing_sorted_partial_ := false
  upper_only_ := false
  n_entries := 0
  n_progress_count := 0
  n_blocks := 0
  l_flush_limit := 64
  l_largest_uncompressed := 0
  bytes_added := 0
  bytes_written := 0
  index_entry := ⟨0, 0, 0, 0⟩
  buffer := ⟨[]⟩
  spin_lock := ⟨false⟩
  cout := ['F', 'L', 'A', 'G', '\n']

end io

end tomahawk

namespace tomahawk

/-! ## Single-record and bulk appends to the textual writer -/

/-- `OutputEntry`, one computed result record: the contig and position of
its first variant, which the writers read, and `bytes`, the record as
`buffer << entry` copies it into a buffer. -/
structure OutputEntry where
  AcontigID : Int
  Aposition : Nat
  bytes : List Char
deriving DecidableEq

/-- Modelled from the spec: `totempole::IndexEntry::operator++` is declared
outside the sources; a record advances the entry's variant count by one. -/
def totempole.IndexEntry.inc (e : totempole.IndexEntry) : totempole.IndexEntry :=
  { e with n_variants := e.n_variants + 1 }

namespace io

/-- `buffer << entry`: the record's bytes are appended. -/
def BasicBuffer.addEntry (b : BasicBuffer) (entry : OutputEntry) : BasicBuffer :=
  ⟨b.buffer ++ entry.bytes⟩

/-- How a call on the writer ends: it returns, or the process is ended by
`exit(status)` after `diagnostic` went to `std::cerr`, the writer being as
`writer` at that point. -/
inductive Outcome where
  | returned (writer : OutputWriterStdOut)
  | exited (status : Nat) (diagnostic : String) (writer : OutputWriterStdOut)
deriving DecidableEq

namespace OutputWriterStdOut

/-- `OutputWriterStdOut::operator<<(const entry_type&)`. -/
def append (s : OutputWriterStdOut) (entry : OutputEntry) : OutputWriterStdOut :=
  let s1 : OutputWriterStdOut :=
    if s.index_entry.n_variants = 0 then
      { s with index_entry := { s.index_entry with contigID := entry.AcontigID
                                                   min_position := entry.Aposition
                                                   max_position := entry.Aposition } }
    else s
  let s2 : OutputWriterStdOut :=
    if s1.index_entry.contigID ≠ entry.AcontigID then
      let f : OutputWriterStdOut := s1.flush true
      { f with index_entry := { f.index_entry with contigID := entry.AcontigID
                                                   min_position := entry.Aposition
                                                   max_position := entry.Aposition } }
    else s1
  let s3 : OutputWriterStdOut :=
    if s2.buffer.size > s2.l_flush_limit then
      let f : OutputWriterStdOut := s2.flush true
      { f with index_entry := { f.index_entry with contigID := entry.AcontigID
                                                   min_position := entry.Aposition
                                                   max_position := entry.Aposition } }
    else s2
  let s4 : OutputWriterStdOut := { s3 with buffer := s3.buffer.addEntry entry }
  let s5 : OutputWriterStdOut := { s4 with n_entries := (s4.n_entries + 1) % 2 ^ 64 }
  let s6 : OutputWriterStdOut := { s5 with index_entry := s5.index_entry.inc }
  { s6 with index_entry := { s6.index_entry with max_position := entry.Aposition } }

/-- `OutputWriterStdOut::operator<<(const container_type&)`: a diagnostic
and `exit(1)`. The container is a list of records. -/
def appendContainer (s : OutputWriterStdOut) (_container : List OutputEntry) : Outcome :=
  .exited 1 "Cannot write processed binary block to cout...\n" s

/-- `OutputWriterStdOut::operator<<(buffer_type&)`: a diagnostic and
`exit(1)`. -/
def appendBuffer (s : OutputWriterStdOut) (_buffer : BasicBuffer) : Outcome :=
  .exited 1 "Cannot write processed binary block to cout...\n" s

end OutputWriterStdOut

/-! ## Sequences of calls on the textual writer -/

/-- A record as an observer of the private buffer sees it: the contig of its
first variant and its characters. -/
structure Held where
  contig : Int
  text : List Char
deriving DecidableEq

/-- A call on the textual writer. -/
inductive Call where
  | add (meta_a meta_b : MetaEntry) (header_a header_b : totempole.IndexEntry)
      (helper : support.OutputEntrySupport)
  | append (entry : OutputEntry)
  | flush (lock : Bool)
deriving DecidableEq

/-- The records one `add` call appends: the (a,b) line and, unless
upper-only, the mirrored (b,a) line. -/
def addedLines (readable : Int → List Char) (upper_only : Bool) (meta_a meta_b : MetaEntry)
    (header_a header_b : totempole.IndexEntry) (helper : support.OutputEntrySupport) :
    List Held :=
  ⟨header_a.contigID, record readable helper.controller header_a.contigID meta_a.position
      header_b.contigID meta_b.position helper.readable⟩ ::
  (if upper_only = true then []
   else [⟨header_b.contigID, record readable helper.controller header_b.contigID meta_b.position
      header_a.contigID meta_a.position helper.readable⟩])

/-- The characters of a list of held records, in order. -/
def heldText (held : List Held) : List Char := (held.map Held.text).flatten

/-- A writer together with what an observer of its calls has seen: `held`
are the records appended since `flush` was last called, that is, the records
in the private buffer, and `records` counts the records appended by all
calls so far. -/
structure Trace where
  writer : OutputWriterStdOut
  held : List Held
  records : Nat
deriving DecidableEq

/-- The observer before any call, the buffer being empty. -/
def Trace.start (w : OutputWriterStdOut) : Trace := { writer := w, held := [], records := 0 }

/-- One call, observed. `add` calls `flush` after appending when the buffer
is over the limit; a single-record append calls it before appending when the
contig changes or the buffer is over the limit. -/
def exec (readable : Int → List Char) (t : Trace) : Call → Trace
  | .add meta_a meta_b header_a header_b helper =>
    let lines := addedLines readable t.writer.upper_only_ meta_a meta_b header_a header_b helper
    { writer := t.writer.add readable meta_a meta_b header_a header_b helper
      held := if t.writer.buffer.size + (heldText lines).length > t.writer.l_flush_limit then []
              else t.held ++ lines
      records := t.records + lines.length }
  | .append entry =>
    let contigChange : Bool :=
      decide (t.writer.index_entry.n_variants ≠ 0 ∧ t.writer.index_entry.contigID ≠ entry.AcontigID)
    let held1 := if contigChange = true then [] else t.held
    let overLimit : Bool :=
      decide ((if contigChange = true then 0 else t.writer.buffer.size) > t.writer.l_flush_limit)
    let held2 := if overLimit = true then [] else held1
    { writer := t.writer.append entry
      held := held2 ++ [⟨entry.AcontigID, entry.bytes⟩]
      records := t.records + 1 }
  | .flush lock =>
    { writer := t.writer.flush lock, held := [], records := t.records }

/-- A sequence of calls, observed. -/
def run (readable : Int → List Char) (t : Trace) (calls : List Call) : Trace :=
  calls.foldl (exec readable) t

end io

end tomahawk

namespace Tomahawk

/-! ## The block iterator -/

/-- `Support::TomahawkEntryMeta<T>`, the meta entry of one variant: the
fields the iterator reads. The struct is declared outside the sources. -/
structure TomahawkEntryMeta where
  n_runs : Nat
  virtual_offset : Nat
  virtual_offset_complex : Nat
  isRLE : Bool
deriving DecidableEq

namespace Totempole

/-- `Totempole::TotempoleEntry` as the block iterator reads it: the variant
count of the block and the lengths of its sections. -/
structure TotempoleEntry where
  n_variants : Nat
  l_meta : Nat
  l_rle : Nat
  l_simple : Nat
deriving DecidableEq

end Totempole

/-- The memory layout the iterator relies on: `sizeofMeta` is
`sizeof(meta_type)`, `sizeofRun` is `sizeof(run_type)` and `metaAt data p`
is the meta entry the `reinterpret_cast` reads at byte `p` of the block. -/
structure BlockLayout where
  sizeofMeta : Nat
  sizeofRun : Nat
  metaAt : List Nat → Nat → TomahawkEntryMeta

/-- The members of `TomahawkBlockIterator<T>`. The five counters are `U32`.
The pointers `meta`, `encoding_RLE`, `encoding_simple` and `meta_complex`
are byte offsets into `data`. -/
structure TomahawkBlockIterator where
  position : Nat
  p_rle : Nat
  p_simple : Nat
  pointer : Nat
  upper_limit : Nat
  width : Nat
  totempole : Totempole.TotempoleEntry
  data : List Nat
  meta : Nat
  encoding_RLE : Nat
  encoding_simple : Nat
  meta_complex : Nat
deriving DecidableEq

namespace TomahawkBlockIterator

/-- `getMeta()`: `meta[position]`. -/
def getMeta (L : BlockLayout) (it : TomahawkBlockIterator) : TomahawkEntryMeta :=
  L.metaAt it.data (it.meta + it.position * L.sizeofMeta)

/-- The constructor `TomahawkBlockIterator(data, size, totempole)`. -/
def new (L : BlockLayout) (data : List Nat) (size : Nat) (totempole : Totempole.TotempoleEntry) :
    TomahawkBlockIterator :=
  let it : TomahawkBlockIterator :=
    { position := 0, p_rle := 0, p_simple := 0, pointer := 0, upper_limit := 0
      width := size, totempole := totempole, data := data
      meta := 0
      encoding_RLE := totempole.l_meta
      encoding_simple := totempole.l_meta + totempole.l_rle
      meta_complex := totempole.l_meta + totempole.l_rle + totempole.l_simple }
  { it with upper_limit := (L.metaAt it.data (it.meta + 0 * L.sizeofMeta)).n_runs % 2 ^ 32 }

/-- `operator++`. -/
def inc (L : BlockLayout) (it : TomahawkBlockIterator) : Bool × TomahawkBlockIterator :=
  if (it.position + 1) % 2 ^ 32 = it.totempole.n_variants then (false, it)
  else
    let it1 : TomahawkBlockIterator := { it with position := (it.position + 1) % 2 ^ 32 }
    let it2 : TomahawkBlockIterator := { it1 with pointer := 0 }
    let it3 : TomahawkBlockIterator := { it2 with upper_limit := (it2.getMeta L).n_runs % 2 ^ 32 }
    if (it3.getMeta L).isRLE = true then
      (true, { it3 with encoding_RLE := it3.totempole.l_meta + (it3.getMeta L).virtual_offset
                        p_rle := (it3.p_rle + 1) % 2 ^ 32 })
    else
      (true, { it3 with encoding_simple :=
                          it3.totempole.l_meta + it3.totempole.l_rle + (it3.getMeta L).virtual_offset
                        p_simple := (it3.p_simple + 1) % 2 ^ 32 })

/-- `nextRun(run)`: `none` is the return value false, which leaves `run`
alone; `some p` is the return value true with `run` pointing at byte `p`. -/
def nextRun (L : BlockLayout) (it : TomahawkBlockIterator) : Option Nat × TomahawkBlockIterator :=
  if it.pointer = it.upper_limit then (none, it)
  else
    (some it.encoding_RLE,
     { it with pointer := (it.pointer + 1) % 2 ^ 32
               encoding_RLE := it.encoding_RLE + L.sizeofRun })

/-- `nextRunSimple<S>(field)`, with `sizeofS` for `sizeof(S)`. -/
def nextRunSimple (sizeofS : Nat) (it : TomahawkBlockIterator) :
    Option Nat × TomahawkBlockIterator :=
  if it.pointer = it.upper_limit then (none, it)
  else
    (some it.encoding_simple,
     { it with pointer := (it.pointer + 1) % 2 ^ 32
               encoding_simple := it.encoding_simple + sizeofS })

/-- `getMetaComplex()`: the byte the returned reference points at. -/
def getMetaComplex (L : BlockLayout) (it : TomahawkBlockIterator) : Nat :=
  it.meta_complex + (it.getMeta L).virtual_offset_complex

/-- The iterator after `k` calls of `operator++`. -/
def incs (L : BlockLayout) (it : TomahawkBlockIterator) : Nat → TomahawkBlockIterator
  | 0 => it
  | k + 1 => (inc L (incs L it k)).2

/-- The iterator after `k` calls of `nextRun`. -/
def nextRuns (L : BlockLayout) (it : TomahawkBlockIterator) : Nat → TomahawkBlockIterator
  | 0 => it
  | k + 1 => (nextRun L (nextRuns L it k)).2

/-- The iterator after `k` calls of `nextRunSimple<S>`. -/
def nextRunsSimple (sizeofS : Nat) (it : TomahawkBlockIterator) : Nat → TomahawkBlockIterator
  | 0 => it
  | k + 1 => (nextRunSimple sizeofS (nextRunsSimple sizeofS it k)).2

/-- The iterator stands at the start of a variant: the run cursor is 0 and
the bound is the variant's recorded run count, as kept by a `U32`. -/
def Positioned (L : BlockLayout) (it : TomahawkBlockIterator) : Prop :=
  it.pointer = 0 ∧ it.upper_limit = (it.getMeta L).n_runs % 2 ^ 32

end TomahawkBlockIterator

/-- A layout for evaluating the model: meta entries of four bytes, the run
count, the offset, the complex offset and the encoding flag, and runs of two
bytes. -/
def sampleLayout : BlockLayout where
  sizeofMeta := 4
  sizeofRun := 2
  metaAt := fun data p =>
    ⟨(data.drop p).headD 0, (data.drop (p + 1)).headD 0, (data.drop (p + 2)).headD 0,
      decide ((data.drop (p + 3)).headD 0 = 1)⟩

/-- A block of three variants: two run-length encoded ones with 2 and 1
runs, and a simple one with 3 codes. -/
def sampleBlock : List Nat :=
  [2, 0, 0, 1,  1, 4, 5, 1,  3, 0, 9, 0,
   11, 12, 13, 14, 15, 16,
   21, 22, 23,
   31, 32, 33, 34, 35, 36, 37, 38, 39, 40]

/-- The index entry of the sample block. -/
def sampleTotempole : Totempole.TotempoleEntry := ⟨3, 12, 6, 3⟩

end Tomahawk

namespace Tomahawk

/-! ## The calculation front end -/

/-- `seekp(p)`: the put position is set. -/
def ofstream.seekp (f : ofstream) (p : Nat) : ofstream := { f with pos := p }

/-- The four bytes of a `U32` in memory (least significant byte first), as
`write(reinterpret_cast<const char*>(&v), sizeof(U32))` sends them. -/
def U32.bytes (v : Nat) : List Nat :=
  [v % 256, v / 256 % 256, v / 65536 % 256, v / 16777216 % 256]

/-- The `U32` that four bytes in memory stand for. -/
def U32.ofBytes : List Nat → Nat
  | [b0, b1, b2, b3] => b0 + 256 * b1 + 65536 * b2 + 16777216 * b3
  | _ => 0

/-- A contig descriptor of the index, `length | n_char | chars`. -/
structure HeaderContig where
  bases : Nat
  name : List Nat
deriving DecidableEq

/-- The reader's index as `WriteTwoHeaderBinary` reads it: `getSamples()`
and the contig table behind `getContigs()` and `getContigBase(i)`. -/
structure totempole_reader where
  samples : Nat
  contigs : List HeaderContig
deriving DecidableEq

/-- What `WriteTwoHeaderBinary` uses but the sources do not contain: the
magic bytes `Constants::WRITE_HEADER_LD_MAGIC` (in their length
`WRITE_HEADER_LD_MAGIC_LENGTH`), the bytes `streamRe << h` writes for the
header `TotempoleHeader(samples)`, and the bytes `streamRe << contig` writes
for a contig descriptor. -/
structure HeaderFormat where
  WRITE_HEADER_LD_MAGIC : List Nat
  header : Nat → List Nat
  contig : HeaderContig → List Nat

/-- The bytes of a contig table, descriptor after descriptor. -/
def HeaderFormat.table (fmt : HeaderFormat) (contigs : List HeaderContig) : List Nat :=
  (contigs.map fmt.contig).flatten

/-- `TomahawkCalc::WriteTwoHeaderBinary`, on a seekable stream that stays
good. `posOffset` is a `size_t`, `n_contigs` and `curPos` are `U32`. -/
def WriteTwoHeaderBinary (fmt : HeaderFormat) (totempole : totempole_reader)
    (stream : ofstream) : Bool × ofstream :=
  let s1 := stream.write fmt.WRITE_HEADER_LD_MAGIC
  let s2 := s1.write (fmt.header totempole.samples)
  let posOffset := s2.tellp
  let s3 := s2.write (U32.bytes 0)
  let n_contigs := totempole.contigs.length % 2 ^ 32
  let s4 := s3.write (U32.bytes n_contigs)
  let s5 := totempole.contigs.foldl (fun s c => s.write (fmt.contig c)) s4
  let curPos := s5.tellp % 2 ^ 32
  let s6 := s5.seekp posOffset
  let s7 := s6.write (U32.bytes curPos)
  let s8 := s7.seekp curPos
  (true, s8)

/-- The word types `Calculate<T>` is instantiated at. -/
inductive WordType where
  | BYTE
  | U16
  | U32
  | U64
deriving DecidableEq

/-- How `CalculateWrapper` ends: it returns a value, or the process is ended
by `exit(status)` after the diagnostic. -/
inductive CalcOutcome where
  | returned (value : Bool)
  | exited (status : Nat)
deriving DecidableEq

/-- `TomahawkCalc::CalculateWrapper`. `Calculate T` is what `Calculate<T>()`
returns and `getBitWidth` what `reader.getBitWidth()` returns, both from
outside the sources; `bit_width` is a `BYTE`. -/
def CalculateWrapper (Calculate : WordType → Bool) (getBitWidth : Nat) : CalcOutcome :=
  let bit_width := getBitWidth % 256
  if bit_width = 1 then .returned (Calculate .BYTE)
  else if bit_width = 2 then .returned (Calculate .U16)
  else if bit_width = 4 then .returned (Calculate .U32)
  else if bit_width = 8 then .returned (Calculate .U64)
  else .exited 1

/-! ## The flush limit -/

/-- The sample limits `Constants::UPPER_LIMIT_SAMPLES_8B`, `_16B` and `_32B`,
declared outside the sources. They are positive, so that `limit - 1` does
not wrap. -/
structure Constants where
  UPPER_LIMIT_SAMPLES_8B : Nat
  UPPER_LIMIT_SAMPLES_16B : Nat
  UPPER_LIMIT_SAMPLES_32B : Nat

/-- `ImportWriter::DetermineFlushLimit`; `sizeof(BYTE)`, `sizeof(U16)`,
`sizeof(U32)` and `sizeof(U64)` are 1, 2, 4 and 8. The flush limit is an
unsigned 32-bit member: each value assigned to it is kept modulo `2 ^ 32`.
The sample count is a 64-bit one, so the product with the variant limit is
formed modulo `2 ^ 64` before the division. -/
def ImportWriter.DetermineFlushLimit {E F : Type} (c : Constants) (s : ImportWriter E F) :
    ImportWriter E F :=
  let s1 : ImportWriter E F :=
    { s with flush_limit := (s.vcf_header_.samples * s.n_variants_limit % 2 ^ 64 / 10) % 2 ^ 32 }
  if s1.vcf_header_.samples ≤ c.UPPER_LIMIT_SAMPLES_8B - 1 then
    { s1 with flush_limit := (s1.flush_limit * 1) % 2 ^ 32 }
  else if s1.vcf_header_.samples ≤ c.UPPER_LIMIT_SAMPLES_16B - 1 then
    { s1 with flush_limit := (s1.flush_limit * 2) % 2 ^ 32 }
  else if s1.vcf_header_.samples ≤ c.UPPER_LIMIT_SAMPLES_32B - 1 then
    { s1 with flush_limit := (s1.flush_limit * 4) % 2 ^ 32 }
  else { s1 with flush_limit := (s1.flush_limit * 8) % 2 ^ 32 }

/-- The byte width selected from a sample count, as the flush limit is
described: 1 up to the 8-bit sample limit minus 1, else 2 up to the 16-bit
limit minus 1, else 4 up to the 32-bit limit minus 1, else 8. -/
def byteWidth (c : Constants) (samples : Nat) : Nat :=
  if samples ≤ c.UPPER_LIMIT_SAMPLES_8B - 1 then 1
  else if samples ≤ c.UPPER_LIMIT_SAMPLES_16B - 1 then 2
  else if samples ≤ c.UPPER_LIMIT_SAMPLES_32B - 1 then 4
  else 8

/-- A header format for evaluating the model: magic `TWO`, a one-byte header
and contigs written as their length and name. -/
def sampleFormat : HeaderFormat where
  WRITE_HEADER_LD_MAGIC := [84, 87, 79]
  header := fun samples => [samples % 256]
  contig := fun c => c.bases % 256 :: c.name.length % 256 :: c.name

/-- The sample limits 2^8, 2^16 and 2^32. -/
def sampleConstants : Constants := ⟨256, 65536, 4294967296⟩

end Tomahawk

namespace tomahawk

namespace io

/-! ## Position range of single-record appends, and merging writers -/

/-- A writer together with the positions an observer has seen appended since
the entry's position range was last started: a single-record append starts
the range anew when the entry has no variants, when the record's contig
differs from the entry's, or when the buffer is over the flush limit. -/
structure RangeTrace where
  writer : OutputWriterStdOut
  positions : List Nat
deriving DecidableEq

/-- One single-record append, observed. -/
def execRange (t : RangeTrace) (entry : OutputEntry) : RangeTrace :=
  let restart : Bool :=
    decide (t.writer.index_entry.n_variants = 0
      ∨ t.writer.index_entry.contigID ≠ entry.AcontigID
      ∨ t.writer.buffer.size > t.writer.l_flush_limit)
  { writer := t.writer.append entry
    positions := (if restart = true then [] else t.positions) ++ [entry.Aposition] }

/-- A sequence of single-record appends, observed. -/
def runRange (t : RangeTrace) (entries : List OutputEntry) : RangeTrace :=
  entries.foldl execRange t

/-- `OutputWriterInterface::operator+=`. -/
def OutputWriterStdOut.addAssign (s other : OutputWriterStdOut) : OutputWriterStdOut :=
  let s1 : OutputWriterStdOut := { s with n_entries := (s.n_entries + other.n_entries) % 2 ^ 64 }
  let s2 : OutputWriterStdOut := { s1 with n_blocks := (s1.n_blocks + other.n_blocks) % 2 ^ 32 }
  let s3 : OutputWriterStdOut :=
    if other.l_largest_uncompressed > s2.l_largest_uncompressed then
      { s2 with l_largest_uncompressed := other.l_largest_uncompressed }
    else s2
  let s4 : OutputWriterStdOut :=
    { s3 with bytes_written := (s3.bytes_written + other.bytes_written) % 2 ^ 64 }
  { s4 with bytes_added := (s4.bytes_added + other.bytes_added) % 2 ^ 64 }

/-- The five statistics `operator+=` merges: entry count, block count,
largest-uncompressed mark, bytes written and bytes added. -/
def OutputWriterStdOut.statistics (s : OutputWriterStdOut) : Nat × Nat × Nat × Nat × Nat :=
  (s.n_entries, s.n_blocks, s.l_largest_uncompressed, s.bytes_written, s.bytes_added)

/-- Worker writers merged into a parent, one after the other. -/
def OutputWriterStdOut.mergeAll (parent : OutputWriterStdOut) (workers : List OutputWriterStdOut) :
    OutputWriterStdOut :=
  workers.foldl OutputWriterStdOut.addAssign parent

end io

end tomahawk

namespace Tomahawk

variable {E F : Type}

/-! ## Rollback and acceptance in `add` -/

theorem BasicBuffer.set_n_chars_emit (b : BasicBuffer) (bytes : List Nat)
    (h : b.n_chars < 2 ^ 32) : (b.emit bytes).set_n_chars (b.n_chars % 2 ^ 32) = b := by
  cases b with
  | mk l =>
    simp only [BasicBuffer.n_chars] at h
    simp only [BasicBuffer.emit, BasicBuffer.set_n_chars, BasicBuffer.n_chars, Nat.mod_eq_of_lt h]
    simp

theorem BasicBuffer.drop_emit (b : BasicBuffer) (bytes : List Nat)
    (h : b.n_chars < 2 ^ 32) : (b.emit bytes).buffer.drop (b.n_chars % 2 ^ 32) = bytes := by
  cases b with
  | mk l =>
    simp only [BasicBuffer.n_chars] at h
    simp only [BasicBuffer.emit, BasicBuffer.n_chars, Nat.mod_eq_of_lt h]
    simp

theorem BasicBuffer.n_chars_emit_sub (b : BasicBuffer) (bytes : List Nat)
    (h : b.n_chars < 2 ^ 32) : (b.emit bytes).n_chars - b.n_chars % 2 ^ 32 = bytes.length := by
  cases b with
  | mk l =>
    simp only [BasicBuffer.n_chars] at h
    simp only [BasicBuffer.emit, BasicBuffer.n_chars, Nat.mod_eq_of_lt h]
    simp

/-- The writer a rejecting `add` returns: the encoder object has moved on,
both buffers carry the saved lengths again, nothing else has changed. -/
theorem ImportWriter.addLine_false (env : Collaborators E F) (s : ImportWriter E F) (line : Line)
    (h : (ImportWriter.addLine env s line).1 = false) :
    (ImportWriter.addLine env s line).2 =
      { s with
        rleController_ := (s.encoded env line).2.1
        buffer_meta_ := (s.buffer_meta_.emit (s.encoded env line).2.2.1).set_n_chars
            (s.buffer_meta_.n_chars % 2 ^ 32)
        buffer_rle_ := (s.buffer_rle_.emit (s.encoded env line).2.2.2).set_n_chars
            (s.buffer_rle_.n_chars % 2 ^ 32) } := by
  revert h
  cases line with
  | vcf line =>
    unfold ImportWriter.addLine ImportWriter.add ImportWriter.encoded
    simp only []
    split_ifs <;> simp
  | bcf line =>
    unfold ImportWriter.addLine ImportWriter.addBCF ImportWriter.encoded
    simp only []
    split_ifs <;> simp

/-- The writer an accepting `add` returns: the emitted bytes stay in the
buffers and the in-progress entry is extended by the line's position. -/
theorem ImportWriter.addLine_true (env : Collaborators E F) (s : ImportWriter E F) (line : Line)
    (h : (ImportWriter.addLine env s line).1 = true) :
    (ImportWriter.addLine env s line).2 =
      { s with
        rleController_ := (s.encoded env line).2.1
        buffer_meta_ := s.buffer_meta_.emit (s.encoded env line).2.2.1
        buffer_rle_ := s.buffer_rle_.emit (s.encoded env line).2.2.2
        totempole_entry :=
          { s.totempole_entry with
            min_position :=
              if s.totempole_entry.min_position = 0 then line.recorded
              else s.totempole_entry.min_position
            max_position := line.recorded
            n_variants := s.totempole_entry.n_variants + 1 } } := by
  revert h
  cases line with
  | vcf line =>
    unfold ImportWriter.addLine ImportWriter.add ImportWriter.encoded
    simp only []
    split_ifs <;> simp [TotempoleEntry.inc, Line.recorded, *]
  | bcf line =>
    unfold ImportWriter.addLine ImportWriter.addBCF ImportWriter.encoded
    simp only []
    split_ifs <;> simp [TotempoleEntry.inc, Line.recorded, *]

/-- When `add` rejects: the encoder failed, or one run, or a statistic below its floor. -/
theorem ImportWriter.addLine_fst (env : Collaborators E F) (s : ImportWriter E F) (line : Line) :
    (ImportWriter.addLine env s line).1 = false ↔
      ((s.encoded env line).1 = false ∨
       ((s.buffer_rle_.emit (s.encoded env line).2.2.2).n_chars - s.buffer_rle_.n_chars % 2 ^ 32)
          / env.getBitWidth (s.encoded env line).2.1 = 1 ∨
       env.lt (env.MetaEntryBase_at ((s.buffer_meta_.emit (s.encoded env line).2.2.1).buffer.drop
          (s.buffer_meta_.n_chars % 2 ^ 32))).HWE_P s.filter.HWE_P = true ∨
       env.lt (env.MetaEntryBase_at ((s.buffer_meta_.emit (s.encoded env line).2.2.1).buffer.drop
          (s.buffer_meta_.n_chars % 2 ^ 32))).MAF s.filter.MAF = true) := by
  cases line with
  | vcf line =>
    unfold ImportWriter.addLine ImportWriter.add ImportWriter.encoded
    simp only []
    split_ifs <;> simp_all
  | bcf line =>
    unfold ImportWriter.addLine ImportWriter.addBCF ImportWriter.encoded
    simp only []
    split_ifs <;> simp_all

/-- C1: if `add` (either overload) returns false on a writer whose two
staging lengths fit the `U32` locals that save them, the meta buffer and the
genotype-code buffer have the lengths they had before the call (indeed the
same live bytes), and the in-progress index entry, with its `min_position`,
`max_position` and variant count, is unchanged. -/
theorem add_false_restores (env : Collaborators E F) (s : ImportWriter E F) (line : Line)
    (hmeta : s.buffer_meta_.n_chars < 2 ^ 32) (hrle : s.buffer_rle_.n_chars < 2 ^ 32)
    (h : (ImportWriter.addLine env s line).1 = false) :
    (ImportWriter.addLine env s line).2.buffer_meta_.n_chars = s.buffer_meta_.n_chars ∧
    (ImportWriter.addLine env s line).2.buffer_rle_.n_chars = s.buffer_rle_.n_chars ∧
    (ImportWriter.addLine env s line).2.buffer_meta_ = s.buffer_meta_ ∧
    (ImportWriter.addLine env s line).2.buffer_rle_ = s.buffer_rle_ ∧
    (ImportWriter.addLine env s line).2.totempole_entry = s.totempole_entry := by
  rw [ImportWriter.addLine_false env s line h]
  simp only [BasicBuffer.set_n_chars_emit _ _ hmeta, BasicBuffer.set_n_chars_emit _ _ hrle]
  simp

/-- Witness for C1: a monomorphic VCF line and a monomorphic BCF record on a
writer that already stages one variant. -/
theorem add_false_restores_witness :
    (ImportWriter.addLine sampleEnv (ImportWriter.addLine sampleEnv sampleWriter (.vcf ⟨7, [0, 0, 1]⟩)).2
        (.bcf ⟨⟨8⟩, [1, 1, 1]⟩)).1 = false ∧
    (ImportWriter.addLine sampleEnv (ImportWriter.addLine sampleEnv sampleWriter (.vcf ⟨7, [0, 0, 1]⟩)).2
        (.bcf ⟨⟨8⟩, [1, 1, 1]⟩)).2.buffer_meta_.n_chars = 2 :=
  ⟨by decide,
   (add_false_restores sampleEnv
      (ImportWriter.addLine sampleEnv sampleWriter (.vcf ⟨7, [0, 0, 1]⟩)).2 (.bcf ⟨⟨8⟩, [1, 1, 1]⟩)
      (by decide) (by decide) (by decide)).1.trans (by decide)⟩

/-- C2: on a line the encoder succeeds on (writer lengths fitting the `U32`
locals), `add` returns false exactly when the bytes emitted into the code
buffer divided by the bit width give one run, or the stored `HWE_P` is below
the filter's, or the stored `MAF` is below the filter's; otherwise it
returns true. -/
theorem add_false_iff (env : Collaborators E F) (s : ImportWriter E F) (line : Line)
    (hmeta : s.buffer_meta_.n_chars < 2 ^ 32) (hrle : s.buffer_rle_.n_chars < 2 ^ 32)
    (henc : (s.encoded env line).1 = true) :
    ((ImportWriter.addLine env s line).1 = false ↔
      ((s.encoded env line).2.2.2.length / env.getBitWidth (s.encoded env line).2.1 = 1 ∨
       env.lt (env.MetaEntryBase_at (s.encoded env line).2.2.1).HWE_P s.filter.HWE_P = true ∨
       env.lt (env.MetaEntryBase_at (s.encoded env line).2.2.1).MAF s.filter.MAF = true)) ∧
    ((ImportWriter.addLine env s line).1 = true ↔
      ¬ ((s.encoded env line).2.2.2.length / env.getBitWidth (s.encoded env line).2.1 = 1 ∨
       env.lt (env.MetaEntryBase_at (s.encoded env line).2.2.1).HWE_P s.filter.HWE_P = true ∨
       env.lt (env.MetaEntryBase_at (s.encoded env line).2.2.1).MAF s.filter.MAF = true)) := by
  have key := ImportWriter.addLine_fst env s line
  rw [BasicBuffer.n_chars_emit_sub _ _ hrle, BasicBuffer.drop_emit _ _ hmeta] at key
  simp only [henc, Bool.true_eq_false, false_or] at key
  refine ⟨key, ?_⟩
  rw [← key]
  simp

/-- Witness for C2: a two-run line is accepted by the sample encoder. -/
theorem add_false_iff_witness :
    (ImportWriter.addLine sampleEnv sampleWriter (.vcf ⟨7, [0, 0, 1]⟩)).1 = true :=
  (add_false_iff sampleEnv sampleWriter (.vcf ⟨7, [0, 0, 1]⟩)
    (by decide) (by decide) (by decide)).2.mpr (by decide)

end Tomahawk

namespace Tomahawk

variable {E F : Type}

/-! ## `flush` -/

theorem ImportWriter.flush_false (env : Collaborators E F) (s : ImportWriter E F)
    (h : (ImportWriter.flush env s).1 = false) : (ImportWriter.flush env s).2 = s := by
  revert h
  unfold ImportWriter.flush
  split_ifs <;> simp

theorem ImportWriter.flush_true (env : Collaborators E F) (s : ImportWriter E F)
    (h : (ImportWriter.flush env s).1 = true) :
    (ImportWriter.flush env s).2 = (ImportWriter.flushBlock env s).reset := by
  revert h
  unfold ImportWriter.flush
  split_ifs <;> simp

theorem ofstream.write_pos (f : ofstream) (bytes : List Nat) :
    (f.write bytes).pos = f.pos + bytes.length := rfl

theorem ofstream.write_data (f : ofstream) (bytes : List Nat) :
    ((f.write bytes).data.drop f.pos).take bytes.length = bytes := by
  have hlen : (f.data.take f.pos ++ List.replicate (f.pos - f.data.length) 0).length = f.pos := by
    simp only [List.length_append, List.length_take, List.length_replicate]
    omega
  unfold ofstream.write
  simp only [List.append_assoc]
  rw [← List.append_assoc, List.drop_left' hlen, List.take_left' rfl]

/-- C3: on a writer whose meta staging buffer is empty, `flush` returns false
and returns the writer as it was: the stream (no byte written), the
written-block and written-variant counters, the largest-uncompressed-block
mark, the in-progress index entry and both staging buffers are unchanged. -/
theorem flush_empty_noop (env : Collaborators E F) (s : ImportWriter E F)
    (h : s.buffer_meta_.size = 0) : ImportWriter.flush env s = (false, s) := by
  unfold ImportWriter.flush
  simp [h]

/-- Witness for C3: the writer right after construction. -/
theorem flush_empty_noop_witness :
    ImportWriter.flush sampleEnv sampleWriter = (false, sampleWriter) :=
  flush_empty_noop sampleEnv sampleWriter (by decide)

/-- C4: when `flush` returns true, the index entry it finalizes has
`byte_offset` equal to the stream's write position before the flush and
`byte_offset_end` equal to the write position after it; their difference is
the length of the compressed frame, and the frame is what the stream holds
between the two offsets. -/
theorem flush_offsets (env : Collaborators E F) (s : ImportWriter E F)
    (h : (ImportWriter.flush env s).1 = true) :
    (ImportWriter.flushBlock env s).totempole_entry.byte_offset = s.stream.tellp ∧
    (ImportWriter.flushBlock env s).totempole_entry.byte_offset_end
      = (ImportWriter.flush env s).2.stream.tellp ∧
    (ImportWriter.flushBlock env s).totempole_entry.byte_offset_end
      - (ImportWriter.flushBlock env s).totempole_entry.byte_offset
      = (env.Deflate s.buffer_meta_ s.buffer_rle_).length ∧
    (((ImportWriter.flush env s).2.stream.data.drop
        (ImportWriter.flushBlock env s).totempole_entry.byte_offset).take
        (env.Deflate s.buffer_meta_ s.buffer_rle_).length)
      = env.Deflate s.buffer_meta_ s.buffer_rle_ := by
  rw [ImportWriter.flush_true env s h]
  refine ⟨rfl, rfl, ?_, ?_⟩
  · simp [ImportWriter.flushBlock, ofstream.tellp, ofstream.write_pos]
  · simp only [ImportWriter.flushBlock, ImportWriter.reset, ofstream.tellp]
    exact ofstream.write_data _ _

/-- Witness for C4: one accepted variant, then a flush into an empty file:
the six-byte frame lies between offsets 0 and 6. -/
theorem flush_offsets_witness :
    (ImportWriter.flushBlock sampleEnv
      (ImportWriter.addLine sampleEnv sampleWriter (.vcf ⟨7, [0, 0, 1]⟩)).2).totempole_entry.byte_offset_end
      - (ImportWriter.flushBlock sampleEnv
      (ImportWriter.addLine sampleEnv sampleWriter (.vcf ⟨7, [0, 0, 1]⟩)).2).totempole_entry.byte_offset
      = 6 :=
  (flush_offsets sampleEnv (ImportWriter.addLine sampleEnv sampleWriter (.vcf ⟨7, [0, 0, 1]⟩)).2
    (by decide)).2.2.1.trans (by decide)

end Tomahawk

namespace Tomahawk

variable {E F : Type}

/-! ## Sequences of `add` and `flush` -/

theorem ImportWriter.addLine_stream (env : Collaborators E F) (s : ImportWriter E F) (line : Line) :
    (ImportWriter.addLine env s line).2.stream = s.stream := by
  cases h : (ImportWriter.addLine env s line).1 with
  | false => rw [ImportWriter.addLine_false env s line h]
  | true => rw [ImportWriter.addLine_true env s line h]

theorem run_nil (env : Collaborators E F) (t : Trace E F) : run env t [] = t := rfl

theorem run_cons (env : Collaborators E F) (t : Trace E F) (c : Call) (calls : List Call) :
    run env t (c :: calls) = run env (exec env t c) calls := rfl

/-- The offsets of the finalized entries chain up, and the last one ends at
the stream's write position: kept by every call. -/
theorem exec_contiguous (env : Collaborators E F) (t : Trace E F) (c : Call)
    (hc : List.Chain' (fun a b : TotempoleEntry => a.byte_offset_end = b.byte_offset) t.finalized)
    (hl : ∀ e ∈ t.finalized.getLast?, e.byte_offset_end = t.writer.stream.pos) :
    List.Chain' (fun a b : TotempoleEntry => a.byte_offset_end = b.byte_offset)
        (exec env t c).finalized ∧
    ∀ e ∈ (exec env t c).finalized.getLast?,
        e.byte_offset_end = (exec env t c).writer.stream.pos := by
  cases c with
  | add line =>
    unfold exec
    simp only []
    split_ifs <;> simpa [ImportWriter.addLine_stream] using ⟨hc, hl⟩
  | flush =>
    unfold exec
    simp only []
    split_ifs with h
    · simp only [ImportWriter.flush_true env t.writer h]
      refine ⟨?_, ?_⟩
      · refine List.Chain'.append hc (List.chain'_singleton _) ?_
        intro x hx y hy
        simp only [List.head?_cons, Option.mem_def, Option.some.injEq] at hy
        subst hy
        exact hl x hx
      · intro e he
        simp only [List.getLast?_append, List.getLast?_singleton, Option.or_some,
          Option.mem_def, Option.some.injEq] at he
        subst he
        rfl
    · have h' : (ImportWriter.flush env t.writer).1 = false := by simpa using h
      simpa [ImportWriter.flush_false env t.writer h'] using ⟨hc, hl⟩

theorem run_contiguous (env : Collaborators E F) (calls : List Call) :
    ∀ t : Trace E F,
    List.Chain' (fun a b : TotempoleEntry => a.byte_offset_end = b.byte_offset) t.finalized →
    (∀ e ∈ t.finalized.getLast?, e.byte_offset_end = t.writer.stream.pos) →
    List.Chain' (fun a b : TotempoleEntry => a.byte_offset_end = b.byte_offset)
      (run env t calls).finalized := by
  induction calls with
  | nil => intro t hc _; exact hc
  | cons c calls ih =>
    intro t hc hl
    rw [run_cons]
    exact ih _ (exec_contiguous env t c hc hl).1 (exec_contiguous env t c hc hl).2

theorem run_finalized_length (env : Collaborators E F) (calls : List Call) :
    ∀ t : Trace E F, t.finalized.length = t.flushes →
    (run env t calls).finalized.length = (run env t calls).flushes := by
  induction calls with
  | nil => intro t h; exact h
  | cons c calls ih =>
    intro t h
    rw [run_cons]
    apply ih
    cases c with
    | add line =>
      unfold exec
      simp only []
      split_ifs <;> exact h
    | flush =>
      unfold exec
      simp only []
      split_ifs
      · simp [h]
      · exact h

/-- C5: in any sequence of `add` and `flush` calls (nothing else writes to
the stream), the index entries finalized by the successful flushes, one per
such flush and taken in flush order, are contiguous: each entry's
`byte_offset_end` is the next entry's `byte_offset`. -/
theorem flush_frames_contiguous (env : Collaborators E F) (w : ImportWriter E F)
    (calls : List Call) :
    (run env (Trace.start w) calls).finalized.length = (run env (Trace.start w) calls).flushes ∧
    List.Chain' (fun a b : TotempoleEntry => a.byte_offset_end = b.byte_offset)
      (run env (Trace.start w) calls).finalized :=
  ⟨run_finalized_length env calls (Trace.start w) rfl,
   run_contiguous env calls (Trace.start w) List.chain'_nil (by simp [Trace.start])⟩

/-- C6, evaluated: one accepted variant and a flush. The flush finalizes the
entry `⟨0, 6, 7, 7, 1, 2⟩` and returns true, and the writer it leaves holds
the frame in the stream, the counters, and a reset entry: the finalized entry
is kept nowhere. -/
theorem flush_drops_finalized_entry :
    (ImportWriter.flushBlock sampleEnv
      (ImportWriter.addLine sampleEnv sampleWriter (.vcf ⟨7, [0, 0, 1]⟩)).2).totempole_entry
      = ⟨0, 6, 7, 7, 1, 2⟩ ∧
    ImportWriter.flush sampleEnv (ImportWriter.addLine sampleEnv sampleWriter (.vcf ⟨7, [0, 0, 1]⟩)).2
      = (true, { sampleWriter with
                  blocksWritten_ := 1, variants_written_ := 1, largest_uncompressed_block_ := 2
                  stream := ⟨[2, 2, 100, 1, 0, 1], 6⟩ }) := by
  constructor
  · decide
  · rfl

end Tomahawk

namespace Tomahawk

variable {E F : Type}

/-! ## Counters -/

/-- The counting invariant of a run, kept by every call. -/
theorem exec_counts (env : Collaborators E F) (t : Trace E F) (c : Call)
    (h1 : t.writer.totempole_entry.n_variants = t.sinceFlush)
    (h2 : t.writer.variants_written_ + t.writer.totempole_entry.n_variants = t.accepted)
    (h3 : t.writer.blocksWritten_ = t.flushes) :
    (exec env t c).writer.totempole_entry.n_variants = (exec env t c).sinceFlush ∧
    (exec env t c).writer.variants_written_ + (exec env t c).writer.totempole_entry.n_variants
      = (exec env t c).accepted ∧
    (exec env t c).writer.blocksWritten_ = (exec env t c).flushes := by
  cases c with
  | add line =>
    unfold exec
    simp only []
    split_ifs with h
    · simp only [ImportWriter.addLine_true env t.writer line h]
      omega
    · have h' : (ImportWriter.addLine env t.writer line).1 = false := by simpa using h
      simp only [ImportWriter.addLine_false env t.writer line h']
      omega
  | flush =>
    unfold exec
    simp only []
    split_ifs with h
    · simp only [ImportWriter.flush_true env t.writer h, ImportWriter.reset,
        ImportWriter.flushBlock, TotempoleEntry.reset, TotempoleEntry.size]
      refine ⟨trivial, ?_, ?_⟩ <;> omega
    · have h' : (ImportWriter.flush env t.writer).1 = false := by simpa using h
      simp only [ImportWriter.flush_false env t.writer h']
      omega

theorem run_counts (env : Collaborators E F) (calls : List Call) :
    ∀ t : Trace E F,
    t.writer.totempole_entry.n_variants = t.sinceFlush →
    t.writer.variants_written_ + t.writer.totempole_entry.n_variants = t.accepted →
    t.writer.blocksWritten_ = t.flushes →
    (run env t calls).writer.totempole_entry.n_variants = (run env t calls).sinceFlush ∧
    (run env t calls).writer.variants_written_ + (run env t calls).writer.totempole_entry.n_variants
      = (run env t calls).accepted ∧
    (run env t calls).writer.blocksWritten_ = (run env t calls).flushes := by
  induction calls with
  | nil => intro t h1 h2 h3; exact ⟨h1, h2, h3⟩
  | cons c calls ih =>
    intro t h1 h2 h3
    rw [run_cons]
    have h := exec_counts env t c h1 h2 h3
    exact ih _ h.1 h.2.1 h.2.2

/-- C7: from a writer with zero counters and an in-progress entry without
variants, after any sequence of `add` and `flush` calls the in-progress
entry's variant count is the number of `add` calls that returned true since
the last `flush` that returned true, the written-variant counter plus that
count is the number of all `add` calls that returned true, and the
written-block counter is the number of `flush` calls that returned true,
each of which raises it by exactly 1. -/
theorem counters_follow_calls (env : Collaborators E F) (w : ImportWriter E F)
    (calls : List Call)
    (hblocks : w.blocksWritten_ = 0) (hvariants : w.variants_written_ = 0)
    (hentry : w.totempole_entry.n_variants = 0) :
    (run env (Trace.start w) calls).writer.totempole_entry.n_variants
      = (run env (Trace.start w) calls).sinceFlush ∧
    (run env (Trace.start w) calls).writer.variants_written_
      + (run env (Trace.start w) calls).writer.totempole_entry.n_variants
      = (run env (Trace.start w) calls).accepted ∧
    (run env (Trace.start w) calls).writer.blocksWritten_
      = (run env (Trace.start w) calls).flushes ∧
    ∀ s : ImportWriter E F, (ImportWriter.flush env s).1 = true →
      (ImportWriter.flush env s).2.blocksWritten_ = s.blocksWritten_ + 1 := by
  have h := run_counts env calls (Trace.start w) (by simpa [Trace.start] using hentry)
    (by simp [Trace.start, hvariants, hentry]) (by simpa [Trace.start] using hblocks)
  refine ⟨h.1, h.2.1, h.2.2, ?_⟩
  intro s hs
  rw [ImportWriter.flush_true env s hs]
  rfl

/-- Witness for C7: accept, reject, accept, flush, accept. Three variants
were accepted, two of them written with the one block, one is in progress. -/
theorem counters_follow_calls_witness :
    (run sampleEnv (Trace.start sampleWriter)
      [.add (.vcf ⟨7, [0, 0, 1]⟩), .add (.vcf ⟨8, [0, 0, 0]⟩), .add (.bcf ⟨⟨8⟩, [0, 1, 1]⟩),
       .flush, .add (.vcf ⟨12, [1, 0, 1]⟩)]).accepted = 3 ∧
    (run sampleEnv (Trace.start sampleWriter)
      [.add (.vcf ⟨7, [0, 0, 1]⟩), .add (.vcf ⟨8, [0, 0, 0]⟩), .add (.bcf ⟨⟨8⟩, [0, 1, 1]⟩),
       .flush, .add (.vcf ⟨12, [1, 0, 1]⟩)]).writer.variants_written_ = 2 ∧
    (run sampleEnv (Trace.start sampleWriter)
      [.add (.vcf ⟨7, [0, 0, 1]⟩), .add (.vcf ⟨8, [0, 0, 0]⟩), .add (.bcf ⟨⟨8⟩, [0, 1, 1]⟩),
       .flush, .add (.vcf ⟨12, [1, 0, 1]⟩)]).writer.totempole_entry.n_variants
    = (run sampleEnv (Trace.start sampleWriter)
      [.add (.vcf ⟨7, [0, 0, 1]⟩), .add (.vcf ⟨8, [0, 0, 0]⟩), .add (.bcf ⟨⟨8⟩, [0, 1, 1]⟩),
       .flush, .add (.vcf ⟨12, [1, 0, 1]⟩)]).sinceFlush :=
  ⟨by decide, by decide,
   (counters_follow_calls sampleEnv sampleWriter _ (by decide) (by decide) (by decide)).1⟩

/-! ## Position range -/

theorem List.le_getLast_of_pairwise (l : List Nat) (hne : l ≠ []) (hp : l.Pairwise (· ≤ ·))
    (x : Nat) (hx : x ∈ l) : x ≤ l.getLast hne := by
  have hsplit := List.dropLast_append_getLast hne
  rw [← hsplit] at hp hx
  rw [List.pairwise_append] at hp
  rcases List.mem_append.mp hx with h | h
  · exact hp.2.2 x h _ (List.mem_singleton.mpr rfl)
  · rw [List.mem_singleton.mp h]

/-- The position invariant of a block being staged, kept by every `add`. -/
theorem exec_add_positions (env : Collaborators E F) (t : Trace E F) (line : Line)
    (hmin : t.writer.totempole_entry.min_position
      = (t.positions.find? (fun p => decide (p ≠ 0))).getD 0)
    (hmax : ∀ p ∈ t.positions.getLast?, t.writer.totempole_entry.max_position = p) :
    (exec env t (.add line)).writer.totempole_entry.min_position
      = ((exec env t (.add line)).positions.find? (fun p => decide (p ≠ 0))).getD 0 ∧
    ∀ p ∈ (exec env t (.add line)).positions.getLast?,
      (exec env t (.add line)).writer.totempole_entry.max_position = p := by
  unfold exec
  simp only []
  split_ifs with h
  · simp only [ImportWriter.addLine_true env t.writer line h]
    refine ⟨?_, ?_⟩
    · rw [List.find?_append]
      cases hf : t.positions.find? (fun p => decide (p ≠ 0)) with
      | none =>
        rw [hf] at hmin
        by_cases hz : line.recorded = 0 <;> simp [hmin, hz, List.find?]
      | some m =>
        rw [hf] at hmin
        have hm : m ≠ 0 := by simpa using List.find?_some hf
        simp only [Option.getD_some] at hmin
        simp [hmin, hm]
    · intro p hp
      simp only [List.getLast?_append, List.getLast?_singleton, Option.or_some,
        Option.mem_def, Option.some.injEq] at hp
      exact hp
  · have h' : (ImportWriter.addLine env t.writer line).1 = false := by simpa using h
    simp only [ImportWriter.addLine_false env t.writer line h']
    exact ⟨hmin, hmax⟩

theorem run_add_positions (env : Collaborators E F) (lines : List Line) :
    ∀ t : Trace E F,
    t.writer.totempole_entry.min_position
      = (t.positions.find? (fun p => decide (p ≠ 0))).getD 0 →
    (∀ p ∈ t.positions.getLast?, t.writer.totempole_entry.max_position = p) →
    (run env t (lines.map Call.add)).writer.totempole_entry.min_position
      = ((run env t (lines.map Call.add)).positions.find? (fun p => decide (p ≠ 0))).getD 0 ∧
    ∀ p ∈ (run env t (lines.map Call.add)).positions.getLast?,
      (run env t (lines.map Call.add)).writer.totempole_entry.max_position = p := by
  induction lines with
  | nil => intro t h1 h2; exact ⟨h1, h2⟩
  | cons l lines ih =>
    intro t h1 h2
    rw [List.map_cons, run_cons]
    have h := exec_add_positions env t l h1 h2
    exact ih _ h.1 h.2

end Tomahawk

namespace Tomahawk

variable {E F : Type}

theorem List.find_nonzero_of_head (l : List Nat) (hne : l ≠ []) (h : l.head hne ≠ 0) :
    (l.find? (fun p => decide (p ≠ 0))).getD 0 = l.head hne := by
  cases l with
  | nil => exact absurd rfl hne
  | cons a l =>
    simp only [List.head_cons] at h
    simp [List.find?, h]

/-- What `add` makes of the position range: for `add` calls on an entry whose
`min_position` is 0 (a freshly reset one), at least one of them accepted,
`max_position` is the position recorded for the most recently accepted
variant, and `min_position` is the position recorded for the first accepted
variant whose position is not 0 (and 0 if there is none): the value 0 doubles
as the mark of a range not yet started. So `min_position` is the first
accepted variant's position only when that position is not 0;
`min_position <= max_position` whenever the accepted positions arrive in
non-decreasing order. -/
theorem positions_of_accepted (env : Collaborators E F) (w : ImportWriter E F)
    (lines : List Line) (hfresh : w.totempole_entry.min_position = 0)
    (hacc : (run env (Trace.start w) (lines.map Call.add)).positions ≠ []) :
    (run env (Trace.start w) (lines.map Call.add)).writer.totempole_entry.max_position
      = (run env (Trace.start w) (lines.map Call.add)).positions.getLast hacc ∧
    (run env (Trace.start w) (lines.map Call.add)).writer.totempole_entry.min_position
      = ((run env (Trace.start w) (lines.map Call.add)).positions.find?
          (fun p => decide (p ≠ 0))).getD 0 ∧
    ((run env (Trace.start w) (lines.map Call.add)).positions.head hacc ≠ 0 →
      (run env (Trace.start w) (lines.map Call.add)).writer.totempole_entry.min_position
        = (run env (Trace.start w) (lines.map Call.add)).positions.head hacc) ∧
    ((run env (Trace.start w) (lines.map Call.add)).positions.Pairwise (· ≤ ·) →
      (run env (Trace.start w) (lines.map Call.add)).writer.totempole_entry.min_position
        ≤ (run env (Trace.start w) (lines.map Call.add)).writer.totempole_entry.max_position) := by
  have h := run_add_positions env lines (Trace.start w)
    (by simpa [Trace.start] using hfresh) (by simp [Trace.start])
  generalize run env (Trace.start w) (lines.map Call.add) = t at h hacc
  obtain ⟨hmin, hmax⟩ := h
  have hlast : t.writer.totempole_entry.max_position = t.positions.getLast hacc :=
    hmax _ (by simp [List.getLast?_eq_getLast _ hacc])
  refine ⟨hlast, hmin, ?_, ?_⟩
  · intro hhead
    rw [hmin]
    exact List.find_nonzero_of_head _ hacc hhead
  · intro hsorted
    rw [hlast, hmin]
    cases hf : t.positions.find? (fun p => decide (p ≠ 0)) with
    | none => simp
    | some m =>
      simp only [Option.getD_some]
      exact List.le_getLast_of_pairwise _ hacc hsorted m (List.mem_of_find?_eq_some hf)

/-- The position range evaluated: accepted positions 7, 9, 12 with a rejected
line in between. -/
theorem positions_of_accepted_witness :
    (run sampleEnv (Trace.start sampleWriter) ([.vcf ⟨7, [0, 0, 1]⟩, .vcf ⟨8, [0, 0, 0]⟩,
      .bcf ⟨⟨8⟩, [0, 1, 1]⟩, .vcf ⟨12, [1, 0, 1]⟩].map Call.add)).writer.totempole_entry.min_position
      = 7 :=
  ((positions_of_accepted sampleEnv sampleWriter [.vcf ⟨7, [0, 0, 1]⟩, .vcf ⟨8, [0, 0, 0]⟩,
      .bcf ⟨⟨8⟩, [0, 1, 1]⟩, .vcf ⟨12, [1, 0, 1]⟩] (by decide) (by decide)).2.2.1
    (by decide)).trans (by decide)

/-- C8, evaluated: two accepted VCF lines at positions 0 and 5 on a freshly
reset entry. The first accepted variant of the block has position 0, yet
`min_position` ends as 5, the position of the second: `add` takes
`min_position == 0` for a range not yet started and so starts it again. -/
theorem min_position_not_first_accepted :
    sampleWriter.totempole_entry = sampleWriter.totempole_entry.reset ∧
    (run sampleEnv (Trace.start sampleWriter)
      ([.vcf ⟨0, [0, 1]⟩, .vcf ⟨5, [0, 1]⟩].map Call.add)).positions = [0, 5] ∧
    (run sampleEnv (Trace.start sampleWriter)
      ([.vcf ⟨0, [0, 1]⟩, .vcf ⟨5, [0, 1]⟩].map Call.add)).writer.totempole_entry.min_position = 5 ∧
    (run sampleEnv (Trace.start sampleWriter)
      ([.vcf ⟨0, [0, 1]⟩, .vcf ⟨5, [0, 1]⟩].map Call.add)).writer.totempole_entry.max_position = 5 := by
  decide

end Tomahawk

namespace tomahawk.io

/-! ## The textual writer -/

/-- C9: `add` with records a and b appends to the private buffer, when
`upper_only` is false, exactly two tab-separated lines, the first with
(contig a, position a, contig b, position b), the second with a and b
swapped, both with the same flag and the same statistics text, and when
`upper_only` is true exactly the one (a,b) line. If the buffer then exceeds
the flush limit the same call flushes it: the buffer is empty and the old
buffer followed by the new lines has gone to the sink, so that sink followed
by buffer always grows by exactly these lines. -/
theorem add_appends_mirrored_lines (readable : Int → List Char) (s : OutputWriterStdOut)
    (meta_a meta_b : MetaEntry) (header_a header_b : totempole.IndexEntry)
    (helper : support.OutputEntrySupport) :
    (s.upper_only_ = false →
      (s.add readable meta_a meta_b header_a header_b helper).buffer.buffer
        = (if (s.buffer.buffer
                ++ record readable helper.controller header_a.contigID meta_a.position
                    header_b.contigID meta_b.position helper.readable
                ++ record readable helper.controller header_b.contigID meta_b.position
                    header_a.contigID meta_a.position helper.readable).length > s.l_flush_limit
           then []
           else s.buffer.buffer
                ++ record readable helper.controller header_a.contigID meta_a.position
                    header_b.contigID meta_b.position helper.readable
                ++ record readable helper.controller header_b.contigID meta_b.position
                    header_a.contigID meta_a.position helper.readable) ∧
      (s.add readable meta_a meta_b header_a header_b helper).cout
          ++ (s.add readable meta_a meta_b header_a header_b helper).buffer.buffer
        = s.cout ++ s.buffer.buffer
            ++ record readable helper.controller header_a.contigID meta_a.position
                header_b.contigID meta_b.position helper.readable
            ++ record readable helper.controller header_b.contigID meta_b.position
                header_a.contigID meta_a.position helper.readable) ∧
    (s.upper_only_ = true →
      (s.add readable meta_a meta_b header_a header_b helper).buffer.buffer
        = (if (s.buffer.buffer
                ++ record readable helper.controller header_a.contigID meta_a.position
                    header_b.contigID meta_b.position helper.readable).length > s.l_flush_limit
           then []
           else s.buffer.buffer
                ++ record readable helper.controller header_a.contigID meta_a.position
                    header_b.contigID meta_b.position helper.readable) ∧
      (s.add readable meta_a meta_b header_a header_b helper).cout
          ++ (s.add readable meta_a meta_b header_a header_b helper).buffer.buffer
        = s.cout ++ s.buffer.buffer
            ++ record readable helper.controller header_a.contigID meta_a.position
                header_b.contigID meta_b.position helper.readable) := by
  constructor
  · intro hu
    simp only [OutputWriterStdOut.add, OutputWriterStdOut.flush, BasicBuffer.AddReadble,
      BasicBuffer.addChar, addReadble, BasicBuffer.size, BasicBuffer.data, BasicBuffer.reset,
      record, hu, if_true]
    split_ifs <;> (simp_all; try omega)
  · intro hu
    simp only [OutputWriterStdOut.add, OutputWriterStdOut.flush, BasicBuffer.AddReadble,
      BasicBuffer.addChar, addReadble, BasicBuffer.size, BasicBuffer.data, BasicBuffer.reset,
      record, hu, if_true]
    split_ifs <;> (simp_all; try omega)

/-- The writer `flush` returns for a non-empty buffer. -/
theorem OutputWriterStdOut.flush_of_pos (s : OutputWriterStdOut) (lock : Bool)
    (h : 0 < s.buffer.size) :
    s.flush lock =
      { s with bytes_added := (s.bytes_added + s.buffer.size) % 2 ^ 64
               bytes_written := (s.bytes_written + s.buffer.size) % 2 ^ 64
               n_blocks := (s.n_blocks + 1) % 2 ^ 32
               cout := s.cout ++ s.buffer.data
               buffer := ⟨[]⟩
               spin_lock := if lock = true then ⟨false⟩ else s.spin_lock } := by
  unfold OutputWriterStdOut.flush
  rw [if_pos h]
  cases lock <;> rfl

/-- C10: `flush` on an empty private buffer returns the writer as it was (no
counter changes, nothing is written). Otherwise, whatever the `lock`
argument, the buffer's characters are appended verbatim to the sink,
`bytes_added` and `bytes_written` each grow by the buffer's size (in `U64`
arithmetic, hence exactly unless the sum wraps), the block count grows by 1
(in `U32` arithmetic), and the private buffer is left empty; the `lock`
argument only decides whether the lock is taken and released on the way. -/
theorem flush_writes_buffer (s : OutputWriterStdOut) (lock : Bool) :
    (s.buffer.size = 0 → s.flush lock = s) ∧
    (0 < s.buffer.size →
      (s.flush lock).cout = s.cout ++ s.buffer.data ∧
      (s.flush lock).bytes_added = (s.bytes_added + s.buffer.size) % 2 ^ 64 ∧
      (s.flush lock).bytes_written = (s.bytes_written + s.buffer.size) % 2 ^ 64 ∧
      (s.flush lock).n_blocks = (s.n_blocks + 1) % 2 ^ 32 ∧
      (s.bytes_added + s.buffer.size < 2 ^ 64 →
        (s.flush lock).bytes_added = s.bytes_added + s.buffer.size) ∧
      (s.bytes_written + s.buffer.size < 2 ^ 64 →
        (s.flush lock).bytes_written = s.bytes_written + s.buffer.size) ∧
      (s.n_blocks + 1 < 2 ^ 32 → (s.flush lock).n_blocks = s.n_blocks + 1) ∧
      (s.flush lock).buffer.size = 0 ∧
      (s.flush lock).buffer.data = [] ∧
      s.flush true = { s.flush false with spin_lock := ⟨false⟩ }) := by
  constructor
  · intro h
    simp [OutputWriterStdOut.flush, h]
  · intro h
    rw [OutputWriterStdOut.flush_of_pos s true h, OutputWriterStdOut.flush_of_pos s false h,
      OutputWriterStdOut.flush_of_pos s lock h]
    exact ⟨rfl, rfl, rfl, rfl, fun hlt => Nat.mod_eq_of_lt hlt, fun hlt => Nat.mod_eq_of_lt hlt,
      fun hlt => Nat.mod_eq_of_lt hlt, rfl, rfl, rfl⟩

/-- Witness for C10: a buffer of two characters, flushed under the lock. -/
theorem flush_writes_buffer_witness :
    ({ sampleStdOut with buffer := ⟨['a', '\n']⟩ }.flush true).bytes_added = 2 ∧
    ({ sampleStdOut with buffer := ⟨['a', '\n']⟩ }.flush true).n_blocks = 1 ∧
    ({ sampleStdOut with buffer := ⟨['a', '\n']⟩ }.flush true).cout
      = ['F', 'L', 'A', 'G', '\n', 'a', '\n'] :=
  ⟨((flush_writes_buffer { sampleStdOut with buffer := ⟨['a', '\n']⟩ } true).2
      (by decide)).2.2.2.2.1 (by decide),
   ((flush_writes_buffer { sampleStdOut with buffer := ⟨['a', '\n']⟩ } true).2
      (by decide)).2.2.2.2.2.2.1 (by decide),
   ((flush_writes_buffer { sampleStdOut with buffer := ⟨['a', '\n']⟩ } true).2
      (by decide)).1⟩

end tomahawk.io

namespace tomahawk.io

/-! ## Counters of the textual writer -/

/-- `flush` touches the byte counters, the block count, the sink, the lock
and the buffer, and nothing else. -/
theorem OutputWriterStdOut.flush_frame (s : OutputWriterStdOut) (lock : Bool) :
    (s.flush lock).n_entries = s.n_entries ∧
    (s.flush lock).n_progress_count = s.n_progress_count ∧
    (s.flush lock).index_entry = s.index_entry ∧
    (s.flush lock).l_flush_limit = s.l_flush_limit ∧
    (s.flush lock).upper_only_ = s.upper_only_ := by
  unfold OutputWriterStdOut.flush
  split_ifs <;> cases lock <;> exact ⟨rfl, rfl, rfl, rfl, rfl⟩

/-- The counters `add` leaves. -/
theorem OutputWriterStdOut.add_counters (readable : Int → List Char) (s : OutputWriterStdOut)
    (meta_a meta_b : MetaEntry) (header_a header_b : totempole.IndexEntry)
    (helper : support.OutputEntrySupport) :
    (s.add readable meta_a meta_b header_a header_b helper).n_entries
      = (s.n_entries + (if s.upper_only_ = false then 2 else 1)) % 2 ^ 64 ∧
    (s.add readable meta_a meta_b header_a header_b helper).n_progress_count
      = (s.n_progress_count + (if s.upper_only_ = false then 2 else 1)) % 2 ^ 32 ∧
    (s.add readable meta_a meta_b header_a header_b helper).index_entry.n_variants
      = s.index_entry.n_variants + (if s.upper_only_ = false then 2 else 1) := by
  unfold OutputWriterStdOut.add
  simp only []
  split_ifs <;>
    simp only [(OutputWriterStdOut.flush_frame _ true).1, (OutputWriterStdOut.flush_frame _ true).2.1,
      (OutputWriterStdOut.flush_frame _ true).2.2.1] <;>
    refine ⟨?_, ?_, ?_⟩ <;> simp only [Nat.reducePow] <;> omega

/-- The writer a single-record append leaves, up to the flushes it makes. -/
theorem OutputWriterStdOut.append_counters (s : OutputWriterStdOut) (entry : OutputEntry) :
    (s.append entry).n_entries = (s.n_entries + 1) % 2 ^ 64 ∧
    (s.append entry).index_entry.n_variants = s.index_entry.n_variants + 1 ∧
    (s.append entry).n_progress_count = s.n_progress_count := by
  unfold OutputWriterStdOut.append
  simp only []
  split_ifs <;>
    simp [(OutputWriterStdOut.flush_frame _ true).1, (OutputWriterStdOut.flush_frame _ true).2.1,
      (OutputWriterStdOut.flush_frame _ true).2.2.1, totempole.IndexEntry.inc]

/-- C11: `add` raises the entry counter, the progress counter and the output
index entry's variant count each by 2 when `upper_only` is false and by 1
when it is true, and a single-record append raises the entry counter and the
variant count by 1. The entry counter is a `U64` and the progress counter a
`U32`: the sums are taken in that arithmetic, and are exact whenever they do
not wrap. -/
theorem add_and_append_counts (readable : Int → List Char) (s : OutputWriterStdOut)
    (meta_a meta_b : MetaEntry) (header_a header_b : totempole.IndexEntry)
    (helper : support.OutputEntrySupport) (entry : OutputEntry) :
    (s.upper_only_ = false →
      (s.add readable meta_a meta_b header_a header_b helper).n_entries
        = (s.n_entries + 2) % 2 ^ 64 ∧
      (s.add readable meta_a meta_b header_a header_b helper).n_progress_count
        = (s.n_progress_count + 2) % 2 ^ 32 ∧
      (s.add readable meta_a meta_b header_a header_b helper).index_entry.n_variants
        = s.index_entry.n_variants + 2 ∧
      (s.n_entries + 2 < 2 ^ 64 →
        (s.add readable meta_a meta_b header_a header_b helper).n_entries = s.n_entries + 2) ∧
      (s.n_progress_count + 2 < 2 ^ 32 →
        (s.add readable meta_a meta_b header_a header_b helper).n_progress_count
          = s.n_progress_count + 2)) ∧
    (s.upper_only_ = true →
      (s.add readable meta_a meta_b header_a header_b helper).n_entries
        = (s.n_entries + 1) % 2 ^ 64 ∧
      (s.add readable meta_a meta_b header_a header_b helper).n_progress_count
        = (s.n_progress_count + 1) % 2 ^ 32 ∧
      (s.add readable meta_a meta_b header_a header_b helper).index_entry.n_variants
        = s.index_entry.n_variants + 1 ∧
      (s.n_entries + 1 < 2 ^ 64 →
        (s.add readable meta_a meta_b header_a header_b helper).n_entries = s.n_entries + 1) ∧
      (s.n_progress_count + 1 < 2 ^ 32 →
        (s.add readable meta_a meta_b header_a header_b helper).n_progress_count
          = s.n_progress_count + 1)) ∧
    (s.append entry).n_entries = (s.n_entries + 1) % 2 ^ 64 ∧
    (s.append entry).index_entry.n_variants = s.index_entry.n_variants + 1 ∧
    (s.n_entries + 1 < 2 ^ 64 → (s.append entry).n_entries = s.n_entries + 1) := by
  have hadd := OutputWriterStdOut.add_counters readable s meta_a meta_b header_a header_b helper
  have happ := OutputWriterStdOut.append_counters s entry
  refine ⟨?_, ?_, happ.1, happ.2.1, ?_⟩
  · intro hu
    simp only [hu, if_true] at hadd
    refine ⟨hadd.1, hadd.2.1, hadd.2.2, ?_, ?_⟩
    · intro h; rw [hadd.1]; exact Nat.mod_eq_of_lt h
    · intro h; rw [hadd.2.1]; exact Nat.mod_eq_of_lt h
  · intro hu
    simp only [hu, Bool.true_eq_false, if_false] at hadd
    refine ⟨hadd.1, hadd.2.1, hadd.2.2, ?_, ?_⟩
    · intro h; rw [hadd.1]; exact Nat.mod_eq_of_lt h
    · intro h; rw [hadd.2.1]; exact Nat.mod_eq_of_lt h
  · intro h; rw [happ.1]; exact Nat.mod_eq_of_lt h

/-- Witness for C11: one `add` with both lines and one single record on the
sample writer. -/
theorem add_and_append_counts_witness :
    (sampleStdOut.add decimal ⟨100⟩ ⟨250⟩ ⟨1, 0, 0, 0⟩ ⟨2, 0, 0, 0⟩ ⟨3, ['0', '.', '5']⟩).n_entries = 2 ∧
    (sampleStdOut.append ⟨1, 5, ['a', 'b']⟩).index_entry.n_variants = 1 :=
  ⟨((add_and_append_counts decimal sampleStdOut ⟨100⟩ ⟨250⟩ ⟨1, 0, 0, 0⟩ ⟨2, 0, 0, 0⟩
      ⟨3, ['0', '.', '5']⟩ ⟨1, 5, ['a', 'b']⟩).1 (by decide)).2.2.2.1 (by decide),
   (add_and_append_counts decimal sampleStdOut ⟨100⟩ ⟨250⟩ ⟨1, 0, 0, 0⟩ ⟨2, 0, 0, 0⟩
      ⟨3, ['0', '.', '5']⟩ ⟨1, 5, ['a', 'b']⟩).2.2.2.1⟩

/-! ## Bulk appends -/

/-- C14: appending a container or a raw buffer to the textual writer ends the
process with the failure status 1 after the diagnostic, for every writer,
container and buffer; at that point the writer, with its private buffer and
all its counters, is as it was before the call. -/
theorem bulk_append_is_fatal (s : OutputWriterStdOut) (container : List OutputEntry)
    (buffer : BasicBuffer) :
    s.appendContainer container
      = .exited 1 "Cannot write processed binary block to cout...\n" s ∧
    s.appendBuffer buffer
      = .exited 1 "Cannot write processed binary block to cout...\n" s ∧
    (∀ w, s.appendContainer container ≠ .returned w) ∧
    (∀ w, s.appendBuffer buffer ≠ .returned w) := by
  refine ⟨rfl, rfl, ?_, ?_⟩ <;> intro w h <;> cases h

end tomahawk.io

namespace tomahawk.io

/-! ## What the private buffer holds -/

theorem OutputWriterStdOut.flush_of_empty (s : OutputWriterStdOut) (lock : Bool)
    (h : ¬ s.buffer.size > 0) : s.flush lock = s ∧ s.buffer.buffer = [] := by
  refine ⟨?_, ?_⟩
  · unfold OutputWriterStdOut.flush
    rw [if_neg h]
  · simp only [BasicBuffer.size] at h
    exact List.length_eq_zero.mp (by omega)

theorem OutputWriterStdOut.flush_buffer (s : OutputWriterStdOut) (lock : Bool) :
    (s.flush lock).buffer.buffer = [] := by
  by_cases h : s.buffer.size > 0
  · rw [OutputWriterStdOut.flush_of_pos s lock h]
  · rw [(OutputWriterStdOut.flush_of_empty s lock h).1]
    exact (OutputWriterStdOut.flush_of_empty s lock h).2

theorem OutputWriterStdOut.flush_cout (s : OutputWriterStdOut) (lock : Bool) :
    (s.flush lock).cout = s.cout ++ s.buffer.buffer := by
  by_cases h : s.buffer.size > 0
  · rw [OutputWriterStdOut.flush_of_pos s lock h]
    rfl
  · rw [(OutputWriterStdOut.flush_of_empty s lock h).1, (OutputWriterStdOut.flush_of_empty s lock h).2]
    simp

theorem heldText_append (a b : List Held) : heldText (a ++ b) = heldText a ++ heldText b := by
  simp [heldText]

/-- The buffer `add` leaves, in terms of the lines it appends. -/
theorem OutputWriterStdOut.add_buffer (readable : Int → List Char) (s : OutputWriterStdOut)
    (meta_a meta_b : MetaEntry) (header_a header_b : totempole.IndexEntry)
    (helper : support.OutputEntrySupport) :
    (s.add readable meta_a meta_b header_a header_b helper).buffer.buffer
      = if s.buffer.size
            + (heldText (addedLines readable s.upper_only_ meta_a meta_b header_a header_b
                helper)).length > s.l_flush_limit
        then []
        else s.buffer.buffer
            ++ heldText (addedLines readable s.upper_only_ meta_a meta_b header_a header_b helper) := by
  cases hu : s.upper_only_ <;>
    simp only [OutputWriterStdOut.add, OutputWriterStdOut.flush, BasicBuffer.AddReadble,
      BasicBuffer.addChar, addReadble, BasicBuffer.size, BasicBuffer.data, BasicBuffer.reset,
      record, heldText, addedLines, hu, if_true] <;>
    split_ifs <;> (simp_all; try omega)

/-- The buffer a single-record append leaves. -/
theorem OutputWriterStdOut.append_buffer (s : OutputWriterStdOut) (entry : OutputEntry) :
    (s.append entry).buffer.buffer
      = (if s.index_entry.n_variants ≠ 0 ∧ s.index_entry.contigID ≠ entry.AcontigID then []
         else if s.buffer.size > s.l_flush_limit then [] else s.buffer.buffer) ++ entry.bytes := by
  unfold OutputWriterStdOut.append
  simp only [BasicBuffer.addEntry]
  split_ifs <;>
    simp_all [OutputWriterStdOut.flush_buffer, (OutputWriterStdOut.flush_frame _ true).2.2.2.1,
      BasicBuffer.size]

/-- After a single-record append the entry's contig is the record's. -/
theorem OutputWriterStdOut.append_contig (s : OutputWriterStdOut) (entry : OutputEntry) :
    (s.append entry).index_entry.contigID = entry.AcontigID := by
  unfold OutputWriterStdOut.append
  simp only [totempole.IndexEntry.inc]
  split_ifs <;> simp_all

/-- The sink after a single-record append of another contig than the
entry's, the buffer being empty while the entry has no variants. -/
theorem OutputWriterStdOut.append_cout (s : OutputWriterStdOut) (entry : OutputEntry)
    (h0 : s.index_entry.n_variants = 0 → s.buffer.buffer = [])
    (hc : entry.AcontigID ≠ s.index_entry.contigID) :
    (s.append entry).cout = s.cout ++ s.buffer.buffer ∧
    (s.append entry).buffer.buffer = entry.bytes := by
  unfold OutputWriterStdOut.append
  simp only [BasicBuffer.addEntry]
  by_cases hn : s.index_entry.n_variants = 0
  · have hb := h0 hn
    simp [hn, hb, BasicBuffer.size]
  · have hc' : ¬ s.index_entry.contigID = entry.AcontigID := fun h => hc h.symm
    simp [hn, hc', OutputWriterStdOut.flush_buffer, OutputWriterStdOut.flush_cout,
      BasicBuffer.size]

end tomahawk.io

namespace tomahawk.io

/-! ## Sequences of calls on the textual writer -/

theorem stdout_run_nil (readable : Int → List Char) (t : Trace) : run readable t [] = t := rfl

theorem stdout_run_cons (readable : Int → List Char) (t : Trace) (c : Call) (calls : List Call) :
    run readable t (c :: calls) = run readable (exec readable t c) calls := rfl

/-- The observer's records are the buffer's characters, and the variant
count has grown by the records of all calls: kept by every call. -/
theorem exec_records (readable : Int → List Char) (t : Trace) (c : Call) (n0 : Nat)
    (hbuf : t.writer.buffer.buffer = heldText t.held)
    (hn : t.writer.index_entry.n_variants = n0 + t.records) :
    (exec readable t c).writer.buffer.buffer = heldText (exec readable t c).held ∧
    (exec readable t c).writer.index_entry.n_variants = n0 + (exec readable t c).records := by
  cases c with
  | add meta_a meta_b header_a header_b helper =>
    simp only [exec]
    refine ⟨?_, ?_⟩
    · rw [OutputWriterStdOut.add_buffer]
      split_ifs
      · rfl
      · rw [heldText_append, hbuf]
    · rw [(OutputWriterStdOut.add_counters readable t.writer meta_a meta_b header_a header_b
        helper).2.2, hn]
      cases hu : t.writer.upper_only_ <;> simp [addedLines] <;> omega
  | append entry =>
    simp only [exec]
    refine ⟨?_, ?_⟩
    · rw [OutputWriterStdOut.append_buffer, heldText_append]
      by_cases hcc : t.writer.index_entry.n_variants ≠ 0
          ∧ t.writer.index_entry.contigID ≠ entry.AcontigID
      · simp [hcc, heldText]
      · by_cases hov : t.writer.buffer.size > t.writer.l_flush_limit
        · simp [hcc, hov, heldText]
        · simp [hcc, hov, heldText, hbuf]
    · rw [(OutputWriterStdOut.append_counters t.writer entry).2.1, hn]
      omega
  | flush lock =>
    simp only [exec]
    exact ⟨by rw [OutputWriterStdOut.flush_buffer]; rfl,
      by rw [(OutputWriterStdOut.flush_frame t.writer lock).2.2.1]; exact hn⟩

theorem run_records (readable : Int → List Char) (calls : List Call) (n0 : Nat) :
    ∀ t : Trace, t.writer.buffer.buffer = heldText t.held →
    t.writer.index_entry.n_variants = n0 + t.records →
    (run readable t calls).writer.buffer.buffer = heldText (run readable t calls).held ∧
    (run readable t calls).writer.index_entry.n_variants = n0 + (run readable t calls).records := by
  induction calls with
  | nil => intro t h1 h2; exact ⟨h1, h2⟩
  | cons c calls ih =>
    intro t h1 h2
    rw [stdout_run_cons]
    have h := exec_records readable t c n0 h1 h2
    exact ih _ h.1 h.2

/-- C12, as amended: `flush` of the textual writer leaves the output index
entry as it is. From a writer with an empty buffer and a variant count of 0,
after any sequence of `add`, single-record append and `flush` calls the
variant count is the number of records appended by all calls so far, whether
they are still in the private buffer or were flushed; the records the
observer holds are what the buffer contains. -/
theorem variant_count_counts_all_records (readable : Int → List Char) (w : OutputWriterStdOut)
    (calls : List Call) (hbuf : w.buffer.buffer = []) (hn : w.index_entry.n_variants = 0) :
    (run readable (Trace.start w) calls).writer.index_entry.n_variants
      = (run readable (Trace.start w) calls).records ∧
    (run readable (Trace.start w) calls).writer.buffer.buffer
      = heldText (run readable (Trace.start w) calls).held ∧
    (∀ lock : Bool,
      ((run readable (Trace.start w) calls).writer.flush lock).index_entry
        = (run readable (Trace.start w) calls).writer.index_entry) := by
  have h := run_records readable calls 0 (Trace.start w)
    (by simpa [Trace.start, heldText] using hbuf) (by simpa [Trace.start] using hn)
  refine ⟨by simpa using h.2, h.1, fun lock => (OutputWriterStdOut.flush_frame _ lock).2.2.1⟩

/-- Witness for C12 as amended: an `add` of two lines, a flush and a single
record: three records in all, one of them in the buffer. -/
theorem variant_count_counts_all_records_witness :
    (run decimal (Trace.start sampleStdOut)
      [.add ⟨100⟩ ⟨250⟩ ⟨1, 0, 0, 0⟩ ⟨2, 0, 0, 0⟩ ⟨3, ['0', '.', '5']⟩, .flush true,
       .append ⟨1, 5, ['a', 'b']⟩]).writer.index_entry.n_variants = 3 ∧
    (run decimal (Trace.start sampleStdOut)
      [.add ⟨100⟩ ⟨250⟩ ⟨1, 0, 0, 0⟩ ⟨2, 0, 0, 0⟩ ⟨3, ['0', '.', '5']⟩, .flush true,
       .append ⟨1, 5, ['a', 'b']⟩]).held = [⟨1, ['a', 'b']⟩] :=
  ⟨(variant_count_counts_all_records decimal sampleStdOut _ (by decide) (by decide)).1.trans
      (by decide),
   by decide⟩

/-- C12 as stated fails: after a single record and a flush the private
buffer holds no record, yet the output index entry's variant count is 1. -/
theorem variant_count_not_reset_by_flush :
    sampleStdOut.buffer.buffer = [] ∧ sampleStdOut.index_entry.n_variants = 0 ∧
    (run decimal (Trace.start sampleStdOut)
      [.append ⟨1, 5, ['a', 'b']⟩, .flush true]).writer.buffer.buffer = [] ∧
    (run decimal (Trace.start sampleStdOut)
      [.append ⟨1, 5, ['a', 'b']⟩, .flush true]).held = [] ∧
    (run decimal (Trace.start sampleStdOut)
      [.append ⟨1, 5, ['a', 'b']⟩, .flush true]).writer.index_entry.n_variants = 1 := by
  decide

end tomahawk.io

namespace tomahawk.io

/-- The invariant of single-record appends: the buffer's characters are the
held records, all of them of the entry's contig, and none are held while the
entry has no variants. -/
theorem exec_append_contig (readable : Int → List Char) (t : Trace) (entry : OutputEntry)
    (hbuf : t.writer.buffer.buffer = heldText t.held)
    (hall : ∀ r ∈ t.held, r.contig = t.writer.index_entry.contigID)
    (h0 : t.writer.index_entry.n_variants = 0 → t.held = []) :
    (exec readable t (.append entry)).writer.buffer.buffer
      = heldText (exec readable t (.append entry)).held ∧
    (∀ r ∈ (exec readable t (.append entry)).held,
      r.contig = (exec readable t (.append entry)).writer.index_entry.contigID) ∧
    ((exec readable t (.append entry)).writer.index_entry.n_variants = 0 →
      (exec readable t (.append entry)).held = []) := by
  simp only [exec]
  refine ⟨?_, ?_, ?_⟩
  · rw [OutputWriterStdOut.append_buffer, heldText_append]
    by_cases hcc : t.writer.index_entry.n_variants ≠ 0
        ∧ t.writer.index_entry.contigID ≠ entry.AcontigID
    · simp [hcc, heldText]
    · by_cases hov : t.writer.buffer.size > t.writer.l_flush_limit
      · simp [hcc, hov, heldText]
      · simp [hcc, hov, heldText, hbuf]
  · intro r hr
    rw [OutputWriterStdOut.append_contig]
    rcases List.mem_append.mp hr with h | h
    · by_cases hcc : t.writer.index_entry.n_variants ≠ 0
          ∧ t.writer.index_entry.contigID ≠ entry.AcontigID
      · simp [hcc] at h
      · by_cases hov : t.writer.buffer.size > t.writer.l_flush_limit
        · simp [hcc, hov] at h
        · simp only [hcc, hov, decide_False, Bool.false_eq_true, if_false] at h
          by_cases hn : t.writer.index_entry.n_variants = 0
          · rw [h0 hn] at h
            cases h
          · have hc : t.writer.index_entry.contigID = entry.AcontigID := by
              by_contra hne
              exact hcc ⟨hn, hne⟩
            rw [hall r h, hc]
    · rw [List.mem_singleton.mp h]
  · intro h
    rw [(OutputWriterStdOut.append_counters t.writer entry).2.1] at h
    omega

theorem run_append_contig (readable : Int → List Char) (entries : List OutputEntry) :
    ∀ t : Trace, t.writer.buffer.buffer = heldText t.held →
    (∀ r ∈ t.held, r.contig = t.writer.index_entry.contigID) →
    (t.writer.index_entry.n_variants = 0 → t.held = []) →
    (run readable t (entries.map Call.append)).writer.buffer.buffer
      = heldText (run readable t (entries.map Call.append)).held ∧
    (∀ r ∈ (run readable t (entries.map Call.append)).held,
      r.contig = (run readable t (entries.map Call.append)).writer.index_entry.contigID) ∧
    ((run readable t (entries.map Call.append)).writer.index_entry.n_variants = 0 →
      (run readable t (entries.map Call.append)).held = []) ∧
    (∀ e ∈ entries.getLast?,
      (run readable t (entries.map Call.append)).writer.index_entry.contigID = e.AcontigID) := by
  induction entries with
  | nil => intro t h1 h2 h3; exact ⟨h1, h2, h3, by simp⟩
  | cons e entries ih =>
    intro t h1 h2 h3
    rw [List.map_cons, stdout_run_cons]
    have h := exec_append_contig readable t e h1 h2 h3
    have hrest := ih _ h.1 h.2.1 h.2.2
    refine ⟨hrest.1, hrest.2.1, hrest.2.2.1, ?_⟩
    cases entries with
    | nil =>
      intro e' he'
      simp only [List.getLast?_singleton, Option.mem_def, Option.some.injEq] at he'
      subst he'
      exact OutputWriterStdOut.append_contig t.writer e
    | cons e2 rest =>
      intro e' he'
      rw [List.getLast?_cons_cons] at he'
      exact hrest.2.2.2 e' he'

/-- C13: for single-record appends to a writer that starts with an empty
buffer (whatever its variant count, 0 in particular). After the appends the entry's contig is the
contig of the last appended record, the private buffer consists of the held
records and all of them are of the entry's contig (never two contigs at
once); and a next record whose contig differs from the entry's finds the
buffer flushed before it is buffered: the sink has received the old buffer
and the buffer holds the new record alone. -/
theorem appends_keep_one_contig (readable : Int → List Char) (w : OutputWriterStdOut)
    (entries : List OutputEntry) (hbuf : w.buffer.buffer = []) :
    (∀ e ∈ entries.getLast?,
      (run readable (Trace.start w) (entries.map Call.append)).writer.index_entry.contigID
        = e.AcontigID) ∧
    (run readable (Trace.start w) (entries.map Call.append)).writer.buffer.buffer
      = heldText (run readable (Trace.start w) (entries.map Call.append)).held ∧
    (∀ r ∈ (run readable (Trace.start w) (entries.map Call.append)).held,
      r.contig
        = (run readable (Trace.start w) (entries.map Call.append)).writer.index_entry.contigID) ∧
    (∀ next : OutputEntry,
      next.AcontigID
        ≠ (run readable (Trace.start w) (entries.map Call.append)).writer.index_entry.contigID →
      ((run readable (Trace.start w) (entries.map Call.append)).writer.append next).cout
        = (run readable (Trace.start w) (entries.map Call.append)).writer.cout
          ++ (run readable (Trace.start w) (entries.map Call.append)).writer.buffer.buffer ∧
      ((run readable (Trace.start w) (entries.map Call.append)).writer.append next).buffer.buffer
        = next.bytes ∧
      (run readable (Trace.start w) (entries.map Call.append ++ [Call.append next])).held
        = [⟨next.AcontigID, next.bytes⟩]) := by
  have h := run_append_contig readable entries (Trace.start w)
    (by simpa [Trace.start, heldText] using hbuf) (by simp [Trace.start])
    (by simp [Trace.start])
  have happ : ∀ next : OutputEntry,
      run readable (Trace.start w) (entries.map Call.append ++ [Call.append next])
        = exec readable (run readable (Trace.start w) (entries.map Call.append))
            (.append next) := by
    intro next
    simp [run, List.foldl_append]
  simp only [happ]
  generalize run readable (Trace.start w) (entries.map Call.append) = t at h ⊢
  obtain ⟨h1, h2, h3, h4⟩ := h
  refine ⟨h4, h1, h2, ?_⟩
  intro next hne
  have hb0 : t.writer.index_entry.n_variants = 0 → t.writer.buffer.buffer = [] := by
    intro hz
    rw [h1, h3 hz]
    rfl
  refine ⟨(OutputWriterStdOut.append_cout t.writer next hb0 hne).1,
    (OutputWriterStdOut.append_cout t.writer next hb0 hne).2, ?_⟩
  simp only [exec]
  by_cases hz : t.writer.index_entry.n_variants = 0
  · rw [h3 hz]
    simp
  · have hc : ¬ t.writer.index_entry.contigID = next.AcontigID := fun h => hne h.symm
    simp [hz, hc]

end tomahawk.io

namespace tomahawk.io

/-- Witness for C13: two records of contig 1, then one of contig 2, which
finds the buffer flushed. -/
theorem appends_keep_one_contig_witness :
    (run decimal (Trace.start sampleStdOut)
      ([⟨1, 5, ['a', 'b']⟩, ⟨1, 7, ['c']⟩].map Call.append)).writer.buffer.buffer = ['a', 'b', 'c'] ∧
    ((run decimal (Trace.start sampleStdOut)
      ([⟨1, 5, ['a', 'b']⟩, ⟨1, 7, ['c']⟩].map Call.append)).writer.append ⟨2, 3, ['d']⟩).buffer.buffer
      = ['d'] :=
  ⟨by decide,
   ((appends_keep_one_contig decimal sampleStdOut [⟨1, 5, ['a', 'b']⟩, ⟨1, 7, ['c']⟩]
      (by decide)).2.2.2 ⟨2, 3, ['d']⟩ (by decide)).2.1⟩

end tomahawk.io

namespace Tomahawk

namespace TomahawkBlockIterator

/-! ## The block iterator -/

theorem inc_totempole (L : BlockLayout) (it : TomahawkBlockIterator) :
    (inc L it).2.totempole = it.totempole ∧ (inc L it).2.meta_complex = it.meta_complex ∧
    (inc L it).2.data = it.data ∧ (inc L it).2.meta = it.meta := by
  unfold inc
  simp only []
  split_ifs <;> exact ⟨rfl, rfl, rfl, rfl⟩

theorem incs_totempole (L : BlockLayout) (it : TomahawkBlockIterator) (k : Nat) :
    (incs L it k).totempole = it.totempole ∧ (incs L it k).meta_complex = it.meta_complex ∧
    (incs L it k).data = it.data ∧ (incs L it k).meta = it.meta := by
  induction k with
  | zero => exact ⟨rfl, rfl, rfl, rfl⟩
  | succ k ih =>
    have h := inc_totempole L (incs L it k)
    exact ⟨h.1.trans ih.1, h.2.1.trans ih.2.1, h.2.2.1.trans ih.2.2.1, h.2.2.2.trans ih.2.2.2⟩

/-- The step of `operator++` below the last variant. -/
theorem inc_of_lt (L : BlockLayout) (it : TomahawkBlockIterator)
    (hn : it.totempole.n_variants < 2 ^ 32) (h : it.position + 1 < it.totempole.n_variants) :
    (inc L it).1 = true ∧ (inc L it).2.position = it.position + 1 ∧ (inc L it).2.pointer = 0 ∧
    Positioned L (inc L it).2 := by
  have hmod : (it.position + 1) % 2 ^ 32 = it.position + 1 := Nat.mod_eq_of_lt (by omega)
  have hne : ¬ (it.position + 1) % 2 ^ 32 = it.totempole.n_variants := by omega
  unfold inc
  rw [if_neg hne]
  simp only [hmod]
  split_ifs <;> exact ⟨rfl, rfl, rfl, rfl, rfl⟩

/-- The step of `operator++` on the last variant. -/
theorem inc_of_last (L : BlockLayout) (it : TomahawkBlockIterator)
    (hn : it.totempole.n_variants < 2 ^ 32) (h : it.position + 1 = it.totempole.n_variants) :
    inc L it = (false, it) := by
  have hmod : (it.position + 1) % 2 ^ 32 = it.totempole.n_variants := by
    rw [h]
    exact Nat.mod_eq_of_lt hn
  unfold inc
  rw [if_pos hmod]

theorem incs_position (L : BlockLayout) (it : TomahawkBlockIterator)
    (hn : it.totempole.n_variants < 2 ^ 32) (hpos : it.position = 0)
    (h1 : 1 ≤ it.totempole.n_variants) (k : Nat) :
    (incs L it k).position = min k (it.totempole.n_variants - 1) := by
  induction k with
  | zero => simpa [incs] using hpos
  | succ k ih =>
    have ht := (incs_totempole L it k).1
    by_cases hk : k + 1 < it.totempole.n_variants
    · have h := inc_of_lt L (incs L it k) (by rw [ht]; exact hn) (by rw [ht, ih]; omega)
      simp only [incs]
      rw [h.2.1, ih]
      omega
    · have h := inc_of_last L (incs L it k) (by rw [ht]; exact hn) (by rw [ht, ih]; omega)
      simp only [incs]
      rw [h, ih]
      omega

/-- C15: for a block whose index entry records `n` variants, `1 <= n` (and
`n` within the `U32` range of the position counter), the freshly constructed
iterator stands on variant 0; the call of `operator++` after `k` earlier
calls returns true exactly when `k + 1 < n`, so exactly `n - 1` times; a
call that returns true moves the position to `k + 1` and resets the run
cursor to 0; a call that returns false leaves the iterator as it is; after
`k` calls the position is `min k (n - 1)`, always below `n`. -/
theorem advance_visits_each_variant (L : BlockLayout) (data : List Nat) (size : Nat)
    (totempole : Totempole.TotempoleEntry) (h1 : 1 ≤ totempole.n_variants)
    (hn : totempole.n_variants < 2 ^ 32) (k : Nat) :
    (new L data size totempole).position = 0 ∧
    ((inc L (incs L (new L data size totempole) k)).1 = true ↔ k + 1 < totempole.n_variants) ∧
    (k + 1 < totempole.n_variants →
      (incs L (new L data size totempole) (k + 1)).position = k + 1 ∧
      (incs L (new L data size totempole) (k + 1)).pointer = 0) ∧
    (totempole.n_variants ≤ k + 1 →
      inc L (incs L (new L data size totempole) k)
        = (false, incs L (new L data size totempole) k) ∧
      (incs L (new L data size totempole) k).position = totempole.n_variants - 1 ∧
      (incs L (new L data size totempole) (k + 1)).position = totempole.n_variants - 1) ∧
    (incs L (new L data size totempole) k).position = min k (totempole.n_variants - 1) ∧
    (incs L (new L data size totempole) k).position < totempole.n_variants := by
  have ht0 : (new L data size totempole).totempole = totempole := rfl
  have hp0 : (new L data size totempole).position = 0 := rfl
  have hpos : ∀ j, (incs L (new L data size totempole) j).position
      = min j (totempole.n_variants - 1) := fun j =>
    incs_position L (new L data size totempole) hn hp0 h1 j
  have ht := (incs_totempole L (new L data size totempole) k).1
  rw [ht0] at ht
  refine ⟨rfl, ?_, ?_, ?_, hpos k, by rw [hpos k]; omega⟩
  · by_cases hk : k + 1 < totempole.n_variants
    · have h := inc_of_lt L (incs L (new L data size totempole) k) (by rw [ht]; exact hn)
        (by rw [ht, hpos k]; omega)
      simp [h.1, hk]
    · have h := inc_of_last L (incs L (new L data size totempole) k) (by rw [ht]; exact hn)
        (by rw [ht, hpos k]; omega)
      simp [h, hk]
  · intro hk
    have h := inc_of_lt L (incs L (new L data size totempole) k) (by rw [ht]; exact hn)
      (by rw [ht, hpos k]; omega)
    refine ⟨?_, h.2.2.1⟩
    rw [hpos (k + 1)]
    omega
  · intro hk
    have h := inc_of_last L (incs L (new L data size totempole) k) (by rw [ht]; exact hn)
      (by rw [ht, hpos k]; omega)
    refine ⟨h, ?_, ?_⟩
    · rw [hpos k]; omega
    · rw [hpos (k + 1)]; omega

/-- Witness for C15: the sample block of three variants; the third call of
`operator++` returns false and the position stays 2. -/
theorem advance_visits_each_variant_witness :
    (inc sampleLayout (incs sampleLayout (new sampleLayout sampleBlock 31 sampleTotempole) 2)).1
      = false ∧
    (incs sampleLayout (new sampleLayout sampleBlock 31 sampleTotempole) 3).position = 2 :=
  ⟨by decide,
   ((advance_visits_each_variant sampleLayout sampleBlock 31 sampleTotempole (by decide)
      (by decide) 2).2.2.2.1 (by decide)).2.2⟩

end TomahawkBlockIterator

end Tomahawk

namespace Tomahawk

namespace TomahawkBlockIterator

/-! ## Runs of the current variant -/

/-- The iterator after `k` calls of `nextRun`, from a cursor not past its
bound. -/
theorem nextRuns_state (L : BlockLayout) (it : TomahawkBlockIterator)
    (hle : it.pointer ≤ it.upper_limit) (hlim : it.upper_limit < 2 ^ 32) (k : Nat) :
    nextRuns L it k =
      { it with pointer := min (it.pointer + k) it.upper_limit
                encoding_RLE := it.encoding_RLE
                  + (min (it.pointer + k) it.upper_limit - it.pointer) * L.sizeofRun } := by
  induction k with
  | zero =>
    simp only [nextRuns, Nat.add_zero, Nat.min_eq_left hle, Nat.sub_self, Nat.zero_mul]
  | succ k ih =>
    simp only [nextRuns, ih, nextRun]
    by_cases hk : it.pointer + k < it.upper_limit
    · have h1 : min (it.pointer + k) it.upper_limit = it.pointer + k := by omega
      have h2 : min (it.pointer + (k + 1)) it.upper_limit = it.pointer + (k + 1) := by omega
      have h3 : ¬ it.pointer + k = it.upper_limit := by omega
      have h4 : (it.pointer + k + 1) % 2 ^ 32 = it.pointer + (k + 1) :=
        Nat.mod_eq_of_lt (by omega)
      simp only [h1, h2, h3, if_false, h4, Nat.add_sub_cancel_left]
      congr 1
      rw [Nat.add_assoc, ← Nat.succ_mul]
    · have h1 : min (it.pointer + k) it.upper_limit = it.upper_limit := by omega
      have h2 : min (it.pointer + (k + 1)) it.upper_limit = it.upper_limit := by omega
      simp only [h1, h2, if_true]

/-- The iterator after `k` calls of `nextRunSimple<S>`, from a cursor not
past its bound. -/
theorem nextRunsSimple_state (sizeofS : Nat) (it : TomahawkBlockIterator)
    (hle : it.pointer ≤ it.upper_limit) (hlim : it.upper_limit < 2 ^ 32) (k : Nat) :
    nextRunsSimple sizeofS it k =
      { it with pointer := min (it.pointer + k) it.upper_limit
                encoding_simple := it.encoding_simple
                  + (min (it.pointer + k) it.upper_limit - it.pointer) * sizeofS } := by
  induction k with
  | zero =>
    simp only [nextRunsSimple, Nat.add_zero, Nat.min_eq_left hle, Nat.sub_self, Nat.zero_mul]
  | succ k ih =>
    simp only [nextRunsSimple, ih, nextRunSimple]
    by_cases hk : it.pointer + k < it.upper_limit
    · have h1 : min (it.pointer + k) it.upper_limit = it.pointer + k := by omega
      have h2 : min (it.pointer + (k + 1)) it.upper_limit = it.pointer + (k + 1) := by omega
      have h3 : ¬ it.pointer + k = it.upper_limit := by omega
      have h4 : (it.pointer + k + 1) % 2 ^ 32 = it.pointer + (k + 1) :=
        Nat.mod_eq_of_lt (by omega)
      simp only [h1, h2, h3, if_false, h4, Nat.add_sub_cancel_left]
      congr 1
      rw [Nat.add_assoc, ← Nat.succ_mul]
    · have h1 : min (it.pointer + k) it.upper_limit = it.upper_limit := by omega
      have h2 : min (it.pointer + (k + 1)) it.upper_limit = it.upper_limit := by omega
      simp only [h1, h2, if_true]

/-- What the call of `nextRun` after `k` earlier calls gives on a positioned
iterator. -/
theorem nextRun_after (L : BlockLayout) (it : TomahawkBlockIterator) (hp : Positioned L it)
    (hr : (it.getMeta L).n_runs < 2 ^ 32) (k : Nat) :
    (k < (it.getMeta L).n_runs →
      (nextRun L (nextRuns L it k)).1 = some (it.encoding_RLE + k * L.sizeofRun)) ∧
    ((it.getMeta L).n_runs ≤ k → nextRun L (nextRuns L it k) = (none, nextRuns L it k)) ∧
    (nextRuns L it k).pointer = min k (it.getMeta L).n_runs := by
  obtain ⟨hp0, hlim⟩ := hp
  rw [Nat.mod_eq_of_lt hr] at hlim
  have hs := nextRuns_state L it (by omega) (by omega) k
  rw [hs]
  simp only [nextRun, hp0, hlim, Nat.zero_add, Nat.sub_zero]
  refine ⟨?_, ?_, trivial⟩
  · intro hk
    have h1 : min k (it.getMeta L).n_runs = k := by omega
    have h3 : ¬ k = (it.getMeta L).n_runs := by omega
    simp only [h1, h3, if_false]
  · intro hk
    have h1 : min k (it.getMeta L).n_runs = (it.getMeta L).n_runs := by omega
    simp only [h1, if_true]

/-- What the call of `nextRunSimple<S>` after `k` earlier calls gives on a
positioned iterator. -/
theorem nextRunSimple_after (L : BlockLayout) (sizeofS : Nat) (it : TomahawkBlockIterator)
    (hp : Positioned L it) (hr : (it.getMeta L).n_runs < 2 ^ 32) (k : Nat) :
    (k < (it.getMeta L).n_runs →
      (nextRunSimple sizeofS (nextRunsSimple sizeofS it k)).1
        = some (it.encoding_simple + k * sizeofS)) ∧
    ((it.getMeta L).n_runs ≤ k →
      nextRunSimple sizeofS (nextRunsSimple sizeofS it k) = (none, nextRunsSimple sizeofS it k)) ∧
    (nextRunsSimple sizeofS it k).pointer = min k (it.getMeta L).n_runs := by
  obtain ⟨hp0, hlim⟩ := hp
  rw [Nat.mod_eq_of_lt hr] at hlim
  have hs := nextRunsSimple_state sizeofS it (by omega) (by omega) k
  rw [hs]
  simp only [nextRunSimple, hp0, hlim, Nat.zero_add, Nat.sub_zero]
  refine ⟨?_, ?_, trivial⟩
  · intro hk
    have h1 : min k (it.getMeta L).n_runs = k := by omega
    have h3 : ¬ k = (it.getMeta L).n_runs := by omega
    simp only [h1, h3, if_false]
  · intro hk
    have h1 : min k (it.getMeta L).n_runs = (it.getMeta L).n_runs := by omega
    simp only [h1, if_true]

/-- The constructor and every `operator++` that returns true leave the
iterator at the start of a variant. -/
theorem positioned_new (L : BlockLayout) (data : List Nat) (size : Nat)
    (totempole : Totempole.TotempoleEntry) : Positioned L (new L data size totempole) :=
  ⟨rfl, rfl⟩

theorem positioned_inc (L : BlockLayout) (it : TomahawkBlockIterator)
    (h : (inc L it).1 = true) : Positioned L (inc L it).2 := by
  revert h
  unfold inc
  simp only []
  split_ifs
  · intro h; cases h
  · intro _; exact ⟨rfl, rfl⟩
  · intro _; exact ⟨rfl, rfl⟩

/-- C16: on an iterator standing at the start of a variant (after the
constructor or after an `operator++` that returned true) whose recorded run
count `r` fits the `U32` bound, the call of `nextRun` after `k` earlier calls
yields a run exactly when `k < r`, the run at `k` run sizes past the
variant's first run, so never one beyond the `r`-th; every later call returns
false, yields nothing and leaves the iterator, run cursor included, as it
is. The same holds for `nextRunSimple`. -/
theorem nextRun_yields_exactly_run_count (L : BlockLayout) (sizeofS : Nat)
    (it : TomahawkBlockIterator) (hp : Positioned L it)
    (hr : (it.getMeta L).n_runs < 2 ^ 32) (k : Nat) :
    (((nextRun L (nextRuns L it k)).1).isSome = true ↔ k < (it.getMeta L).n_runs) ∧
    (k < (it.getMeta L).n_runs →
      (nextRun L (nextRuns L it k)).1 = some (it.encoding_RLE + k * L.sizeofRun)) ∧
    ((it.getMeta L).n_runs ≤ k → nextRun L (nextRuns L it k) = (none, nextRuns L it k)) ∧
    (nextRuns L it k).pointer = min k (it.getMeta L).n_runs ∧
    (((nextRunSimple sizeofS (nextRunsSimple sizeofS it k)).1).isSome = true
      ↔ k < (it.getMeta L).n_runs) ∧
    (k < (it.getMeta L).n_runs →
      (nextRunSimple sizeofS (nextRunsSimple sizeofS it k)).1
        = some (it.encoding_simple + k * sizeofS)) ∧
    ((it.getMeta L).n_runs ≤ k →
      nextRunSimple sizeofS (nextRunsSimple sizeofS it k)
        = (none, nextRunsSimple sizeofS it k)) ∧
    (nextRunsSimple sizeofS it k).pointer = min k (it.getMeta L).n_runs ∧
    (∀ (data : List Nat) (size : Nat) (totempole : Totempole.TotempoleEntry),
      Positioned L (new L data size totempole)) ∧
    (∀ prev : TomahawkBlockIterator, (inc L prev).1 = true → Positioned L (inc L prev).2) := by
  have h := nextRun_after L it hp hr k
  have hs := nextRunSimple_after L sizeofS it hp hr k
  refine ⟨?_, h.1, h.2.1, h.2.2, ?_, hs.1, hs.2.1, hs.2.2, positioned_new L, positioned_inc L⟩
  · by_cases hk : k < (it.getMeta L).n_runs
    · simp [h.1 hk, hk]
    · simp [h.2.1 (by omega), hk]
  · by_cases hk : k < (it.getMeta L).n_runs
    · simp [hs.1 hk, hk]
    · simp [hs.2.1 (by omega), hk]

/-- Witness for C16: the first variant of the sample block has two runs; the
third call of `nextRun` yields nothing. -/
theorem nextRun_yields_exactly_run_count_witness :
    (nextRun sampleLayout
      (nextRuns sampleLayout (new sampleLayout sampleBlock 31 sampleTotempole) 1)).1 = some 14 ∧
    (nextRun sampleLayout
      (nextRuns sampleLayout (new sampleLayout sampleBlock 31 sampleTotempole) 2)).1 = none :=
  ⟨((nextRun_yields_exactly_run_count sampleLayout 1
      (new sampleLayout sampleBlock 31 sampleTotempole)
      (positioned_new sampleLayout sampleBlock 31 sampleTotempole) (by decide) 1).2.1
      (by decide)).trans (by decide),
   by decide⟩

end TomahawkBlockIterator

end Tomahawk

namespace Tomahawk

namespace TomahawkBlockIterator

/-! ## Addresses -/

/-- Where `operator++` points the run and code pointers. -/
theorem inc_true_encoding (L : BlockLayout) (it : TomahawkBlockIterator)
    (h : (inc L it).1 = true) :
    (((inc L it).2.getMeta L).isRLE = true →
      (inc L it).2.encoding_RLE
        = it.totempole.l_meta + ((inc L it).2.getMeta L).virtual_offset) ∧
    (((inc L it).2.getMeta L).isRLE = false →
      (inc L it).2.encoding_simple
        = it.totempole.l_meta + it.totempole.l_rle + ((inc L it).2.getMeta L).virtual_offset) := by
  revert h
  unfold inc
  simp only []
  split_ifs with h1 h2
  · intro h; cases h
  · intro _
    exact ⟨fun _ => rfl, fun hf => Bool.noConfusion (h2.symm.trans hf)⟩
  · intro _
    exact ⟨fun ht => absurd ht h2, fun _ => rfl⟩

/-- C17: the iterator addresses the block by the section lengths of its
index entry. The constructor reads meta entries from byte 0, runs from byte
`l_meta`, simple codes from byte `l_meta + l_rle`, and complex metadata from
byte `l_meta + l_rle + l_simple`; on every variant reached by `operator++`
the meta entry is read at `position` meta sizes from byte 0 and
`getMetaComplex` is at `l_meta + l_rle + l_simple` plus that entry's complex
offset; and after an `operator++` that returned true the `j`-th run yielded
by `nextRun`, `j` below the run count, is at byte
`l_meta + virtual_offset + j * sizeof(run)` for a run-length encoded variant,
and the `j`-th code yielded by `nextRunSimple` at byte
`l_meta + l_rle + virtual_offset + j * sizeof(code)` for a simple one. -/
theorem iterator_addresses (L : BlockLayout) (sizeofS : Nat) (data : List Nat) (size : Nat)
    (totempole : Totempole.TotempoleEntry) (k j : Nat)
    (hinc : (inc L (incs L (new L data size totempole) k)).1 = true)
    (hr : ((incs L (new L data size totempole) (k + 1)).getMeta L).n_runs < 2 ^ 32)
    (hj : j < ((incs L (new L data size totempole) (k + 1)).getMeta L).n_runs) :
    (new L data size totempole).meta = 0 ∧
    (new L data size totempole).encoding_RLE = totempole.l_meta ∧
    (new L data size totempole).encoding_simple = totempole.l_meta + totempole.l_rle ∧
    (new L data size totempole).meta_complex
      = totempole.l_meta + totempole.l_rle + totempole.l_simple ∧
    (incs L (new L data size totempole) k).getMeta L
      = L.metaAt data ((incs L (new L data size totempole) k).position * L.sizeofMeta) ∧
    (incs L (new L data size totempole) k).getMetaComplex L
      = totempole.l_meta + totempole.l_rle + totempole.l_simple
        + ((incs L (new L data size totempole) k).getMeta L).virtual_offset_complex ∧
    (((incs L (new L data size totempole) (k + 1)).getMeta L).isRLE = true →
      (nextRun L (nextRuns L (incs L (new L data size totempole) (k + 1)) j)).1
        = some (totempole.l_meta
            + ((incs L (new L data size totempole) (k + 1)).getMeta L).virtual_offset
            + j * L.sizeofRun)) ∧
    (((incs L (new L data size totempole) (k + 1)).getMeta L).isRLE = false →
      (nextRunSimple sizeofS
          (nextRunsSimple sizeofS (incs L (new L data size totempole) (k + 1)) j)).1
        = some (totempole.l_meta + totempole.l_rle
            + ((incs L (new L data size totempole) (k + 1)).getMeta L).virtual_offset
            + j * sizeofS)) := by
  have hk := incs_totempole L (new L data size totempole) k
  have ht : (incs L (new L data size totempole) k).totempole = totempole := hk.1
  have hpos : Positioned L (incs L (new L data size totempole) (k + 1)) :=
    positioned_inc L _ hinc
  have henc := inc_true_encoding L _ hinc
  rw [ht] at henc
  refine ⟨rfl, rfl, rfl, rfl, ?_, ?_, ?_, ?_⟩
  · simp only [getMeta, hk.2.2.1, hk.2.2.2]
    have h0 : (new L data size totempole).meta = 0 := rfl
    have hd : (new L data size totempole).data = data := rfl
    rw [h0, hd, Nat.zero_add]
  · simp only [getMetaComplex, hk.2.1]
    rfl
  · intro hrle
    rw [(nextRun_after L _ hpos hr j).1 hj]
    exact congrArg (fun a => some (a + j * L.sizeofRun)) (henc.1 hrle)
  · intro hsimple
    rw [(nextRunSimple_after L sizeofS _ hpos hr j).1 hj]
    exact congrArg (fun a => some (a + j * sizeofS)) (henc.2 hsimple)

/-- Witness for C17: in the sample block (`l_meta = 12`, `l_rle = 6`) the
second variant is run-length encoded at offset 4, so its first run is at
byte 16; the third is simple at offset 0, so its second code is at byte 19. -/
theorem iterator_addresses_witness :
    (nextRun sampleLayout
      (nextRuns sampleLayout (incs sampleLayout (new sampleLayout sampleBlock 31 sampleTotempole) 1)
        0)).1 = some 16 ∧
    (nextRunSimple 1
      (nextRunsSimple 1 (incs sampleLayout (new sampleLayout sampleBlock 31 sampleTotempole) 2)
        1)).1 = some 19 :=
  ⟨((iterator_addresses sampleLayout 1 sampleBlock 31 sampleTotempole 0 0 (by decide) (by decide)
      (by decide)).2.2.2.2.2.2.1 (by decide)).trans (by decide),
   ((iterator_addresses sampleLayout 1 sampleBlock 31 sampleTotempole 1 1 (by decide) (by decide)
      (by decide)).2.2.2.2.2.2.2 (by decide)).trans (by decide)⟩

end TomahawkBlockIterator

end Tomahawk

namespace Tomahawk

/-! ## The patched data offset -/

theorem ofstream.write_at_end (d bytes : List Nat) :
    (⟨d, d.length⟩ : ofstream).write bytes = ⟨d ++ bytes, (d ++ bytes).length⟩ := by
  unfold ofstream.write
  simp

theorem ofstream.write_patch (a p b q : List Nat) (pos : Nat) (h : q.length = p.length) :
    ((⟨a ++ p ++ b, pos⟩ : ofstream).seekp a.length).write q
      = ⟨a ++ q ++ b, a.length + q.length⟩ := by
  have t : (a ++ p ++ b).take a.length = a := by
    rw [List.append_assoc]
    exact List.take_left' rfl
  have r : a.length - (a ++ p ++ b).length = 0 := by
    simp only [List.length_append]
    omega
  have d : (a ++ p ++ b).drop (a.length + q.length) = b := by
    rw [h]
    exact List.drop_left' (by simp)
  unfold ofstream.write ofstream.seekp
  simp only [t, r, d, List.replicate_zero, List.append_nil]

theorem ofstream.write_table (fmt : HeaderFormat) (contigs : List HeaderContig) :
    ∀ d : List Nat,
    contigs.foldl (fun s c => s.write (fmt.contig c)) (⟨d, d.length⟩ : ofstream)
      = ⟨d ++ fmt.table contigs, (d ++ fmt.table contigs).length⟩ := by
  induction contigs with
  | nil => intro d; simp [HeaderFormat.table]
  | cons c cs ih =>
    intro d
    rw [List.foldl_cons, ofstream.write_at_end, ih]
    simp [HeaderFormat.table]

theorem U32.length_bytes (v : Nat) : (U32.bytes v).length = 4 := rfl

theorem U32.ofBytes_bytes (v : Nat) (h : v < 2 ^ 32) : U32.ofBytes (U32.bytes v) = v := by
  simp only [U32.bytes, U32.ofBytes]
  omega

/-- C18: on a stream whose write position is its end (a freshly opened file
in particular), with the data start within `U32` range, `WriteTwoHeaderBinary`
leaves the magic bytes, the sample-count header, the 4 bytes of the data
start offset, the contig count and the contig table, in this order: the
4-byte field after magic and header holds the offset of the first byte after
the contig table, every other byte is as it was written before the patch,
and the write position is that data start. -/
theorem data_offset_is_patched (fmt : HeaderFormat) (totempole : totempole_reader)
    (stream : ofstream) (hend : stream.pos = stream.data.length)
    (hfit : stream.data.length + fmt.WRITE_HEADER_LD_MAGIC.length
        + (fmt.header totempole.samples).length + 4 + 4
        + (fmt.table totempole.contigs).length < 2 ^ 32) :
    (WriteTwoHeaderBinary fmt totempole stream).1 = true ∧
    (WriteTwoHeaderBinary fmt totempole stream).2.data
      = stream.data ++ fmt.WRITE_HEADER_LD_MAGIC ++ fmt.header totempole.samples
        ++ U32.bytes (stream.data.length + fmt.WRITE_HEADER_LD_MAGIC.length
            + (fmt.header totempole.samples).length + 4 + 4
            + (fmt.table totempole.contigs).length)
        ++ (U32.bytes (totempole.contigs.length % 2 ^ 32) ++ fmt.table totempole.contigs) ∧
    (WriteTwoHeaderBinary fmt totempole stream).2.tellp
      = stream.data.length + fmt.WRITE_HEADER_LD_MAGIC.length
        + (fmt.header totempole.samples).length + 4 + 4
        + (fmt.table totempole.contigs).length ∧
    (WriteTwoHeaderBinary fmt totempole stream).2.tellp
      = (WriteTwoHeaderBinary fmt totempole stream).2.data.length ∧
    U32.ofBytes (((WriteTwoHeaderBinary fmt totempole stream).2.data.drop
        (stream.data.length + fmt.WRITE_HEADER_LD_MAGIC.length
          + (fmt.header totempole.samples).length)).take 4)
      = (WriteTwoHeaderBinary fmt totempole stream).2.tellp := by
  have key : (WriteTwoHeaderBinary fmt totempole stream).2
      = ⟨stream.data ++ fmt.WRITE_HEADER_LD_MAGIC ++ fmt.header totempole.samples
        ++ U32.bytes (stream.data.length + fmt.WRITE_HEADER_LD_MAGIC.length
            + (fmt.header totempole.samples).length + 4 + 4
            + (fmt.table totempole.contigs).length)
        ++ (U32.bytes (totempole.contigs.length % 2 ^ 32) ++ fmt.table totempole.contigs),
        stream.data.length + fmt.WRITE_HEADER_LD_MAGIC.length
        + (fmt.header totempole.samples).length + 4 + 4
        + (fmt.table totempole.contigs).length⟩ := by
    obtain ⟨d, p⟩ := stream
    simp only at hend hfit
    subst hend
    unfold WriteTwoHeaderBinary
    simp only [ofstream.write_at_end, ofstream.write_table, ofstream.tellp]
    have hcur : (d ++ fmt.WRITE_HEADER_LD_MAGIC ++ fmt.header totempole.samples ++ U32.bytes 0
          ++ U32.bytes (totempole.contigs.length % 2 ^ 32)
          ++ fmt.table totempole.contigs).length
        = d.length + fmt.WRITE_HEADER_LD_MAGIC.length
          + (fmt.header totempole.samples).length + 4 + 4
          + (fmt.table totempole.contigs).length := by
      simp only [List.length_append, U32.length_bytes]
    rw [hcur, Nat.mod_eq_of_lt hfit]
    have hsplit : d ++ fmt.WRITE_HEADER_LD_MAGIC ++ fmt.header totempole.samples
          ++ U32.bytes 0 ++ U32.bytes (totempole.contigs.length % 2 ^ 32)
          ++ fmt.table totempole.contigs
        = (d ++ fmt.WRITE_HEADER_LD_MAGIC ++ fmt.header totempole.samples)
          ++ U32.bytes 0
          ++ (U32.bytes (totempole.contigs.length % 2 ^ 32) ++ fmt.table totempole.contigs) := by
      simp only [List.append_assoc]
    rw [hsplit, ofstream.write_patch _ _ _ _ _ (by rfl)]
    simp only [ofstream.seekp]
  rw [key]
  refine ⟨rfl, rfl, rfl, ?_, ?_⟩
  · simp only [ofstream.tellp, List.length_append, U32.length_bytes]
    omega
  · have hlen : stream.data.length + fmt.WRITE_HEADER_LD_MAGIC.length
          + (fmt.header totempole.samples).length
        = (stream.data ++ fmt.WRITE_HEADER_LD_MAGIC ++ fmt.header totempole.samples).length := by
      simp only [List.length_append]
    simp only [ofstream.tellp]
    rw [List.append_assoc _ (U32.bytes _) _, hlen, List.drop_left' rfl,
      List.take_left' (U32.length_bytes _)]
    exact U32.ofBytes_bytes _ (by simp only [List.length_append]; exact hfit)

/-- Witness for C18: two contigs written to an empty file; the data starts
at byte 19 and the field at bytes 4 to 7 says so. -/
theorem data_offset_is_patched_witness :
    (WriteTwoHeaderBinary sampleFormat ⟨9, [⟨100, [49]⟩, ⟨200, [50, 50]⟩]⟩ ⟨[], 0⟩).2
      = ⟨[84, 87, 79, 9, 19, 0, 0, 0, 2, 0, 0, 0, 100, 1, 49, 200, 2, 50, 50], 19⟩ ∧
    (WriteTwoHeaderBinary sampleFormat ⟨9, [⟨100, [49]⟩, ⟨200, [50, 50]⟩]⟩ ⟨[], 0⟩).2.tellp = 19 :=
  ⟨by decide,
   (data_offset_is_patched sampleFormat ⟨9, [⟨100, [49]⟩, ⟨200, [50, 50]⟩]⟩ ⟨[], 0⟩
      (by decide) (by decide)).2.2.1.trans (by decide)⟩

end Tomahawk

namespace Tomahawk

/-! ## Dispatch on the bit width -/

/-- C19: for a reader bit width that fits the `BYTE` local, `CalculateWrapper`
ends the process with `exit(1)` exactly when the width is none of 1, 2, 4
and 8, and for 1, 2, 4 and 8 it returns what the calculation instantiated at
`BYTE`, `U16`, `U32` and `U64` returns. -/
theorem calculate_wrapper_dispatch (Calculate : WordType → Bool) (getBitWidth : Nat)
    (hbyte : getBitWidth < 256) :
    (CalculateWrapper Calculate getBitWidth = .exited 1 ↔
      getBitWidth ≠ 1 ∧ getBitWidth ≠ 2 ∧ getBitWidth ≠ 4 ∧ getBitWidth ≠ 8) ∧
    (getBitWidth = 1 → CalculateWrapper Calculate getBitWidth = .returned (Calculate .BYTE)) ∧
    (getBitWidth = 2 → CalculateWrapper Calculate getBitWidth = .returned (Calculate .U16)) ∧
    (getBitWidth = 4 → CalculateWrapper Calculate getBitWidth = .returned (Calculate .U32)) ∧
    (getBitWidth = 8 → CalculateWrapper Calculate getBitWidth = .returned (Calculate .U64)) := by
  have hmod : getBitWidth % 256 = getBitWidth := Nat.mod_eq_of_lt hbyte
  unfold CalculateWrapper
  simp only [hmod]
  refine ⟨?_, ?_, ?_, ?_, ?_⟩
  · split_ifs <;> simp_all
  · intro h; simp [h]
  · intro h; simp [h]
  · intro h; simp [h]
  · intro h; simp [h]

/-- Witness for C19: width 4 runs the 32-bit calculation, width 3 is fatal. -/
theorem calculate_wrapper_dispatch_witness :
    CalculateWrapper (fun T => decide (T = .U32)) 4 = .returned true ∧
    CalculateWrapper (fun T => decide (T = .U32)) 3 = .exited 1 :=
  ⟨(calculate_wrapper_dispatch (fun T => decide (T = .U32)) 4 (by decide)).2.2.2.1 rfl,
   (calculate_wrapper_dispatch (fun T => decide (T = .U32)) 3 (by decide)).1.mpr (by decide)⟩

/-! ## The flush limit -/

variable {E F : Type}

theorem byteWidth_mono (c : Constants) (a b : Nat) (h : a ≤ b) :
    byteWidth c a ≤ byteWidth c b := by
  unfold byteWidth
  split_ifs <;> omega

/-- The flush limit `DetermineFlushLimit` leaves, in the arithmetic of the
code. -/
theorem ImportWriter.flush_limit_eq (c : Constants) (s : ImportWriter E F) :
    (s.DetermineFlushLimit c).flush_limit
      = (s.vcf_header_.samples * s.n_variants_limit % 2 ^ 64 / 10) % 2 ^ 32
          * byteWidth c s.vcf_header_.samples % 2 ^ 32 := by
  unfold ImportWriter.DetermineFlushLimit byteWidth
  simp only []
  split_ifs <;> rfl

/-- The flush limit is the exact product when that product fits 32 bits. -/
theorem ImportWriter.flush_limit_exact (c : Constants) (s : ImportWriter E F)
    (h : s.vcf_header_.samples * s.n_variants_limit / 10 * byteWidth c s.vcf_header_.samples
      < 2 ^ 32) :
    (s.DetermineFlushLimit c).flush_limit
      = s.vcf_header_.samples * s.n_variants_limit / 10 * byteWidth c s.vcf_header_.samples := by
  rw [ImportWriter.flush_limit_eq]
  have hw : 1 ≤ byteWidth c s.vcf_header_.samples := by
    unfold byteWidth
    split_ifs <;> decide
  revert h hw
  generalize s.vcf_header_.samples * s.n_variants_limit = product
  generalize byteWidth c s.vcf_header_.samples = w
  intro h hw
  have hq : product / 10 < 2 ^ 32 := lt_of_le_of_lt (Nat.le_mul_of_pos_right _ hw) h
  have hp : product < 2 ^ 64 := by
    simp only [Nat.reducePow] at hq ⊢
    omega
  rw [Nat.mod_eq_of_lt hp, Nat.mod_eq_of_lt hq, Nat.mod_eq_of_lt h]

/-- C20: `DetermineFlushLimit` sets the flush limit, an unsigned 32-bit
member, to `samples * n_variants_limit / 10` (integer division) times the
byte width selected from the sample count, 1, 2, 4 or 8 by the three sample
limits, in 32-bit arithmetic, hence to exactly that product whenever the
product does not overflow 32 bits, and changes nothing else. The width is
non-decreasing in the sample count, and so is the flush limit as long as no
32-bit overflow occurs at the larger sample count. -/
theorem flush_limit_from_samples (c : Constants) (s : ImportWriter E F) (a b : Nat)
    (hab : a ≤ b) :
    (s.DetermineFlushLimit c).flush_limit
      = (s.vcf_header_.samples * s.n_variants_limit % 2 ^ 64 / 10) % 2 ^ 32
          * byteWidth c s.vcf_header_.samples % 2 ^ 32 ∧
    (s.vcf_header_.samples * s.n_variants_limit / 10 * byteWidth c s.vcf_header_.samples
        < 2 ^ 32 →
      (s.DetermineFlushLimit c).flush_limit
        = s.vcf_header_.samples * s.n_variants_limit / 10
            * byteWidth c s.vcf_header_.samples) ∧
    s.DetermineFlushLimit c = { s with flush_limit := (s.DetermineFlushLimit c).flush_limit } ∧
    (byteWidth c a = 1 ∨ byteWidth c a = 2 ∨ byteWidth c a = 4 ∨ byteWidth c a = 8) ∧
    byteWidth c a ≤ byteWidth c b ∧
    (b * s.n_variants_limit / 10 * byteWidth c b < 2 ^ 32 →
      (ImportWriter.DetermineFlushLimit c { s with vcf_header_ := ⟨a⟩ }).flush_limit
        ≤ (ImportWriter.DetermineFlushLimit c { s with vcf_header_ := ⟨b⟩ }).flush_limit) := by
  have hexact : a * s.n_variants_limit / 10 * byteWidth c a
      ≤ b * s.n_variants_limit / 10 * byteWidth c b :=
    Nat.mul_le_mul (Nat.div_le_div_right (Nat.mul_le_mul_right _ hab))
      (byteWidth_mono c a b hab)
  refine ⟨ImportWriter.flush_limit_eq c s, ImportWriter.flush_limit_exact c s, ?_, ?_,
    byteWidth_mono c a b hab, ?_⟩
  · unfold ImportWriter.DetermineFlushLimit
    simp only []
    split_ifs <;> rfl
  · unfold byteWidth
    split_ifs <;> simp
  · intro hb
    rw [ImportWriter.flush_limit_exact c { s with vcf_header_ := ⟨a⟩ }
        (Nat.lt_of_le_of_lt hexact hb),
      ImportWriter.flush_limit_exact c { s with vcf_header_ := ⟨b⟩ } hb]
    exact hexact

/-- Witness for C20: with limits 2^8, 2^16 and 2^32 and 1024 variants per
block, 200 samples give 20480 and 300 samples give 61440; at 50000000
samples the product 20480000000 overflows and the member holds
3300130816. -/
theorem flush_limit_from_samples_witness :
    (ImportWriter.DetermineFlushLimit sampleConstants
      { sampleWriter with vcf_header_ := ⟨200⟩ }).flush_limit = 20480 ∧
    (ImportWriter.DetermineFlushLimit sampleConstants
      { sampleWriter with vcf_header_ := ⟨300⟩ }).flush_limit = 61440 ∧
    (ImportWriter.DetermineFlushLimit sampleConstants
      { sampleWriter with vcf_header_ := ⟨50000000⟩ }).flush_limit = 3300130816 ∧
    (ImportWriter.DetermineFlushLimit sampleConstants
      { sampleWriter with vcf_header_ := ⟨200⟩ }).flush_limit
    ≤ (ImportWriter.DetermineFlushLimit sampleConstants
      { sampleWriter with vcf_header_ := ⟨300⟩ }).flush_limit :=
  ⟨by decide, by decide, by decide,
   (flush_limit_from_samples sampleConstants sampleWriter 200 300 (by decide)).2.2.2.2.2
      (by decide)⟩

end Tomahawk

namespace tomahawk.io

/-! ## Position range of single-record appends -/

/-- The position range a single-record append leaves. -/
theorem OutputWriterStdOut.append_range (s : OutputWriterStdOut) (entry : OutputEntry) :
    (s.append entry).index_entry.max_position = entry.Aposition ∧
    (s.append entry).index_entry.min_position
      = if s.index_entry.n_variants = 0 ∨ s.index_entry.contigID ≠ entry.AcontigID
            ∨ s.buffer.size > s.l_flush_limit
        then entry.Aposition else s.index_entry.min_position := by
  unfold OutputWriterStdOut.append
  simp only [totempole.IndexEntry.inc]
  split_ifs <;>
    (simp_all [(OutputWriterStdOut.flush_frame _ true).2.2.1,
      (OutputWriterStdOut.flush_frame _ true).2.2.2.1, OutputWriterStdOut.flush_buffer,
      BasicBuffer.size]; try omega)

theorem runRange_cons (t : RangeTrace) (e : OutputEntry) (entries : List OutputEntry) :
    runRange t (e :: entries) = runRange (execRange t e) entries := rfl

/-- The range invariant of single-record appends: `min_position` is the
position of the first record of the range and `max_position` that of the
last. -/
theorem execRange_inv (t : RangeTrace) (entry : OutputEntry)
    (h0 : t.positions = [] → t.writer.index_entry.n_variants = 0)
    (hmin : ∀ p ∈ t.positions.head?, t.writer.index_entry.min_position = p) :
    ((execRange t entry).positions = [] → (execRange t entry).writer.index_entry.n_variants = 0) ∧
    (∀ p ∈ (execRange t entry).positions.head?,
      (execRange t entry).writer.index_entry.min_position = p) ∧
    (∀ p ∈ (execRange t entry).positions.getLast?,
      (execRange t entry).writer.index_entry.max_position = p) := by
  simp only [execRange]
  refine ⟨?_, ?_, ?_⟩
  · intro h
    simp at h
  · intro p hp
    rw [(OutputWriterStdOut.append_range t.writer entry).2]
    by_cases hr : t.writer.index_entry.n_variants = 0
        ∨ t.writer.index_entry.contigID ≠ entry.AcontigID
        ∨ t.writer.buffer.size > t.writer.l_flush_limit
    · simp only [hr, decide_True, if_true, List.nil_append, List.head?_cons, Option.mem_def,
        Option.some.injEq] at hp ⊢
      exact hp
    · simp only [hr, decide_False, Bool.false_eq_true, if_false] at hp ⊢
      cases hpos : t.positions with
      | nil => exact absurd (Or.inl (h0 hpos)) hr
      | cons a l =>
        rw [hpos] at hp
        simp only [List.cons_append, List.head?_cons, Option.mem_def, Option.some.injEq] at hp
        subst hp
        exact hmin a (by simp [hpos])
  · intro p hp
    rw [(OutputWriterStdOut.append_range t.writer entry).1]
    simp only [List.getLast?_append, List.getLast?_singleton, Option.or_some, Option.mem_def,
      Option.some.injEq] at hp
    exact hp

theorem runRange_inv (entries : List OutputEntry) :
    ∀ t : RangeTrace, (t.positions = [] → t.writer.index_entry.n_variants = 0) →
    (∀ p ∈ t.positions.head?, t.writer.index_entry.min_position = p) →
    (∀ p ∈ t.positions.getLast?, t.writer.index_entry.max_position = p) →
    (∀ p ∈ (runRange t entries).positions.head?,
      (runRange t entries).writer.index_entry.min_position = p) ∧
    (∀ p ∈ (runRange t entries).positions.getLast?,
      (runRange t entries).writer.index_entry.max_position = p) := by
  induction entries with
  | nil => intro t _ h2 h3; exact ⟨h2, h3⟩
  | cons e entries ih =>
    intro t h1 h2 h3
    rw [runRange_cons]
    have h := execRange_inv t e h1 h2
    exact ih _ h.1 h.2.1 h.2.2

/-- C22, as amended: for single-record appends to a writer whose entry
starts without variants, `min_position` is the position of the first record
appended since the range was last started (at the first record, at a contig
change, or at a flush for the limit) and `max_position` the position of the
most recent one; the range therefore covers all these records,
`min_position <= Aposition <= max_position`, whenever their positions arrive
in non-decreasing order. -/
theorem range_of_appends (w : OutputWriterStdOut) (entries : List OutputEntry)
    (hn : w.index_entry.n_variants = 0) :
    (∀ p ∈ (runRange ⟨w, []⟩ entries).positions.head?,
      (runRange ⟨w, []⟩ entries).writer.index_entry.min_position = p) ∧
    (∀ p ∈ (runRange ⟨w, []⟩ entries).positions.getLast?,
      (runRange ⟨w, []⟩ entries).writer.index_entry.max_position = p) ∧
    ((runRange ⟨w, []⟩ entries).positions.Pairwise (· ≤ ·) →
      ∀ p ∈ (runRange ⟨w, []⟩ entries).positions,
        (runRange ⟨w, []⟩ entries).writer.index_entry.min_position ≤ p ∧
        p ≤ (runRange ⟨w, []⟩ entries).writer.index_entry.max_position) := by
  have h := runRange_inv entries ⟨w, []⟩ (fun _ => hn) (by simp) (by simp)
  generalize runRange ⟨w, []⟩ entries = t at h
  refine ⟨h.1, h.2, ?_⟩
  intro hs p hp
  cases hpos : t.positions with
  | nil => rw [hpos] at hp; cases hp
  | cons a l =>
    have hne : t.positions ≠ [] := by rw [hpos]; exact List.cons_ne_nil a l
    have hmin : t.writer.index_entry.min_position = a := h.1 a (by simp [hpos])
    have hmax : t.writer.index_entry.max_position = t.positions.getLast hne :=
      h.2 _ (by simp [List.getLast?_eq_getLast _ hne])
    refine ⟨?_, ?_⟩
    · rw [hmin]
      rw [hpos] at hs hp
      rcases List.mem_cons.mp hp with hpa | hpl
      · rw [hpa]
      · exact (List.pairwise_cons.mp hs).1 p hpl
    · rw [hmax]
      exact Tomahawk.List.le_getLast_of_pairwise t.positions hne hs p hp

/-- Witness for C22 as amended: positions 3, 5, 5 of one contig. -/
theorem range_of_appends_witness :
    (runRange ⟨sampleStdOut, []⟩
      [⟨1, 3, ['a']⟩, ⟨1, 5, ['b']⟩, ⟨1, 5, ['c']⟩]).writer.index_entry.min_position = 3 ∧
    (runRange ⟨sampleStdOut, []⟩
      [⟨1, 3, ['a']⟩, ⟨1, 5, ['b']⟩, ⟨1, 5, ['c']⟩]).writer.index_entry.max_position = 5 :=
  ⟨(range_of_appends sampleStdOut [⟨1, 3, ['a']⟩, ⟨1, 5, ['b']⟩, ⟨1, 5, ['c']⟩] (by decide)).1 3
      (by decide),
   by decide⟩

/-- C22 as stated fails: two records of one contig at positions 5 and 3,
both still in the buffer. The entry's range is `min_position = 5`,
`max_position = 3`, which covers neither of them. -/
theorem range_misses_unordered_records :
    (runRange ⟨sampleStdOut, []⟩ [⟨1, 5, ['a']⟩, ⟨1, 3, ['b']⟩]).positions = [5, 3] ∧
    (runRange ⟨sampleStdOut, []⟩ [⟨1, 5, ['a']⟩, ⟨1, 3, ['b']⟩]).writer.buffer.buffer
      = ['a', 'b'] ∧
    (runRange ⟨sampleStdOut, []⟩ [⟨1, 5, ['a']⟩, ⟨1, 3, ['b']⟩]).writer.index_entry.min_position
      = 5 ∧
    (runRange ⟨sampleStdOut, []⟩ [⟨1, 5, ['a']⟩, ⟨1, 3, ['b']⟩]).writer.index_entry.max_position
      = 3 := by
  decide

end tomahawk.io

namespace Tomahawk

variable {E F : Type}

/-! ## The largest uncompressed block -/

theorem ImportWriter.addLine_largest (env : Collaborators E F) (s : ImportWriter E F)
    (line : Line) :
    (ImportWriter.addLine env s line).2.largest_uncompressed_block_
      = s.largest_uncompressed_block_ := by
  cases h : (ImportWriter.addLine env s line).1 with
  | false => rw [ImportWriter.addLine_false env s line h]
  | true => rw [ImportWriter.addLine_true env s line h]

theorem ImportWriter.flush_largest (env : Collaborators E F) (s : ImportWriter E F) :
    s.largest_uncompressed_block_ ≤ (ImportWriter.flush env s).2.largest_uncompressed_block_ ∧
    ((ImportWriter.flush env s).1 = true →
      (ImportWriter.flush env s).2.largest_uncompressed_block_
        = max s.largest_uncompressed_block_
            (ImportWriter.flushBlock env s).totempole_entry.uncompressed_size) := by
  cases h : (ImportWriter.flush env s).1 with
  | false =>
    rw [ImportWriter.flush_false env s h]
    exact ⟨Nat.le_refl _, fun hf => Bool.noConfusion hf⟩
  | true =>
    rw [ImportWriter.flush_true env s h]
    simp only [ImportWriter.reset, ImportWriter.flushBlock]
    refine ⟨?_, fun _ => ?_⟩ <;> split_ifs <;> omega

theorem exec_largest (env : Collaborators E F) (t : Trace E F) (c : Call) :
    t.writer.largest_uncompressed_block_ ≤ (exec env t c).writer.largest_uncompressed_block_ := by
  cases c with
  | add line =>
    unfold exec
    simp only []
    split_ifs <;> simp [ImportWriter.addLine_largest]
  | flush =>
    unfold exec
    simp only []
    split_ifs <;> exact (ImportWriter.flush_largest env t.writer).1

theorem run_largest (env : Collaborators E F) (calls : List Call) :
    ∀ t : Trace E F,
    t.writer.largest_uncompressed_block_ ≤ (run env t calls).writer.largest_uncompressed_block_ := by
  induction calls with
  | nil => intro t; exact Nat.le_refl _
  | cons c calls ih =>
    intro t
    rw [run_cons]
    exact Nat.le_trans (exec_largest env t c) (ih _)

/-- C23: the largest-uncompressed-block mark is a high-water mark. `add`
leaves it as it is, `flush` never lowers it, a `flush` that returns true
leaves the maximum of the previous mark and the uncompressed size recorded in
the flushed block's index entry, so at least that size, and over any sequence
of `add` and `flush` calls the mark never decreases. -/
theorem largest_block_is_high_water (env : Collaborators E F) (s : ImportWriter E F)
    (line : Line) (calls : List Call) :
    (ImportWriter.addLine env s line).2.largest_uncompressed_block_
      = s.largest_uncompressed_block_ ∧
    s.largest_uncompressed_block_ ≤ (ImportWriter.flush env s).2.largest_uncompressed_block_ ∧
    ((ImportWriter.flush env s).1 = true →
      (ImportWriter.flush env s).2.largest_uncompressed_block_
        = max s.largest_uncompressed_block_
            (ImportWriter.flushBlock env s).totempole_entry.uncompressed_size ∧
      (ImportWriter.flushBlock env s).totempole_entry.uncompressed_size
        ≤ (ImportWriter.flush env s).2.largest_uncompressed_block_ ∧
      (ImportWriter.flushBlock env s).totempole_entry.uncompressed_size = s.buffer_meta_.size) ∧
    s.largest_uncompressed_block_
      ≤ (run env (Trace.start s) calls).writer.largest_uncompressed_block_ := by
  refine ⟨ImportWriter.addLine_largest env s line, (ImportWriter.flush_largest env s).1, ?_,
    run_largest env calls (Trace.start s)⟩
  intro h
  have hf := (ImportWriter.flush_largest env s).2 h
  refine ⟨hf, ?_, rfl⟩
  rw [hf]
  exact Nat.le_max_right _ _

/-- Witness for C23: two blocks, of two and four meta bytes; the mark ends
at 4. -/
theorem largest_block_is_high_water_witness :
    (run sampleEnv (Trace.start sampleWriter)
      [.add (.vcf ⟨7, [0, 0, 1]⟩), .flush, .add (.vcf ⟨8, [0, 1, 1]⟩),
       .add (.vcf ⟨9, [1, 0, 1]⟩), .flush]).writer.largest_uncompressed_block_ = 4 ∧
    (ImportWriter.flush sampleEnv
      (ImportWriter.addLine sampleEnv sampleWriter (.vcf ⟨7, [0, 0, 1]⟩)).2).2.largest_uncompressed_block_
      = 2 :=
  ⟨by decide,
   ((largest_block_is_high_water sampleEnv
      (ImportWriter.addLine sampleEnv sampleWriter (.vcf ⟨7, [0, 0, 1]⟩)).2 (.vcf ⟨7, [0, 0, 1]⟩)
      []).2.2.1 (by decide)).1.trans (by decide)⟩

end Tomahawk

namespace tomahawk.io

/-! ## The bound on the private buffer -/

/-- C24: after an `add` call the private buffer's size is at most the flush
limit, and after a single-record append it is at most the flush limit plus
the size of that record; neither call changes the flush limit. This holds
from every writer state, hence after every sequence of `add`, single-record
append and `flush` calls. -/
theorem buffer_stays_bounded (readable : Int → List Char) (s : OutputWriterStdOut)
    (meta_a meta_b : MetaEntry) (header_a header_b : totempole.IndexEntry)
    (helper : support.OutputEntrySupport) (entry : OutputEntry) (calls : List Call) :
    (s.add readable meta_a meta_b header_a header_b helper).buffer.size ≤ s.l_flush_limit ∧
    (s.append entry).buffer.size ≤ s.l_flush_limit + entry.bytes.length ∧
    ((run readable (Trace.start s) calls).writer.add readable meta_a meta_b header_a header_b
        helper).buffer.size ≤ (run readable (Trace.start s) calls).writer.l_flush_limit ∧
    ((run readable (Trace.start s) calls).writer.append entry).buffer.size
      ≤ (run readable (Trace.start s) calls).writer.l_flush_limit + entry.bytes.length := by
  have hadd : ∀ w : OutputWriterStdOut,
      (w.add readable meta_a meta_b header_a header_b helper).buffer.size ≤ w.l_flush_limit := by
    intro w
    simp only [BasicBuffer.size, OutputWriterStdOut.add_buffer]
    split_ifs with h
    · simp
    · simp only [List.length_append]
      omega
  have happ : ∀ w : OutputWriterStdOut,
      (w.append entry).buffer.size ≤ w.l_flush_limit + entry.bytes.length := by
    intro w
    simp only [BasicBuffer.size, OutputWriterStdOut.append_buffer]
    split_ifs <;> simp_all
  exact ⟨hadd s, happ s, hadd _, happ _⟩

end tomahawk.io

namespace tomahawk.io

/-! ## Merging writer statistics -/

/-- What `operator+=` leaves: the five statistics merged, everything else as
in the left operand. -/
theorem OutputWriterStdOut.addAssign_eq (s other : OutputWriterStdOut) :
    s.addAssign other =
      { s with n_entries := (s.n_entries + other.n_entries) % 2 ^ 64
               n_blocks := (s.n_blocks + other.n_blocks) % 2 ^ 32
               l_largest_uncompressed := max s.l_largest_uncompressed other.l_largest_uncompressed
               bytes_written := (s.bytes_written + other.bytes_written) % 2 ^ 64
               bytes_added := (s.bytes_added + other.bytes_added) % 2 ^ 64 } := by
  unfold OutputWriterStdOut.addAssign
  simp only []
  split_ifs with h
  · rw [Nat.max_eq_right (Nat.le_of_lt h)]
  · rw [Nat.max_eq_left (Nat.le_of_not_lt h)]

theorem OutputWriterStdOut.addAssign_right_comm (z x y : OutputWriterStdOut) :
    (z.addAssign x).addAssign y = (z.addAssign y).addAssign x := by
  simp only [OutputWriterStdOut.addAssign_eq, OutputWriterStdOut.mk.injEq, true_and, and_true,
    Nat.reducePow]
  refine ⟨?_, ?_, ?_, ?_, ?_⟩ <;> omega

theorem OutputWriterStdOut.mergeAll_cons (p w : OutputWriterStdOut)
    (ws : List OutputWriterStdOut) :
    OutputWriterStdOut.mergeAll p (w :: ws) = OutputWriterStdOut.mergeAll (p.addAssign w) ws :=
  rfl

/-- The statistics after merging a list of workers, for a parent whose
counters are in range. -/
theorem OutputWriterStdOut.mergeAll_statistics (ws : List OutputWriterStdOut) :
    ∀ p : OutputWriterStdOut, p.n_entries < 2 ^ 64 → p.n_blocks < 2 ^ 32 →
    p.bytes_written < 2 ^ 64 → p.bytes_added < 2 ^ 64 →
    (OutputWriterStdOut.mergeAll p ws).n_entries
      = (p.n_entries + (ws.map (fun w => w.n_entries)).sum) % 2 ^ 64 ∧
    (OutputWriterStdOut.mergeAll p ws).n_blocks
      = (p.n_blocks + (ws.map (fun w => w.n_blocks)).sum) % 2 ^ 32 ∧
    (OutputWriterStdOut.mergeAll p ws).l_largest_uncompressed
      = (ws.map (fun w => w.l_largest_uncompressed)).foldl max p.l_largest_uncompressed ∧
    (OutputWriterStdOut.mergeAll p ws).bytes_written
      = (p.bytes_written + (ws.map (fun w => w.bytes_written)).sum) % 2 ^ 64 ∧
    (OutputWriterStdOut.mergeAll p ws).bytes_added
      = (p.bytes_added + (ws.map (fun w => w.bytes_added)).sum) % 2 ^ 64 := by
  induction ws with
  | nil =>
    intro p h1 h2 h3 h4
    simp only [OutputWriterStdOut.mergeAll, List.foldl_nil, List.map_nil, List.sum_nil,
      Nat.add_zero]
    exact ⟨(Nat.mod_eq_of_lt h1).symm, (Nat.mod_eq_of_lt h2).symm, trivial,
      (Nat.mod_eq_of_lt h3).symm, (Nat.mod_eq_of_lt h4).symm⟩
  | cons w ws ih =>
    intro p _ _ _ _
    rw [OutputWriterStdOut.mergeAll_cons]
    have e1 : (p.addAssign w).n_entries = (p.n_entries + w.n_entries) % 2 ^ 64 := by
      rw [OutputWriterStdOut.addAssign_eq]
    have e2 : (p.addAssign w).n_blocks = (p.n_blocks + w.n_blocks) % 2 ^ 32 := by
      rw [OutputWriterStdOut.addAssign_eq]
    have e3 : (p.addAssign w).l_largest_uncompressed
        = max p.l_largest_uncompressed w.l_largest_uncompressed := by
      rw [OutputWriterStdOut.addAssign_eq]
    have e4 : (p.addAssign w).bytes_written = (p.bytes_written + w.bytes_written) % 2 ^ 64 := by
      rw [OutputWriterStdOut.addAssign_eq]
    have e5 : (p.addAssign w).bytes_added = (p.bytes_added + w.bytes_added) % 2 ^ 64 := by
      rw [OutputWriterStdOut.addAssign_eq]
    have h := ih (p.addAssign w)
      (by rw [e1]; exact Nat.mod_lt _ (by decide))
      (by rw [e2]; exact Nat.mod_lt _ (by decide))
      (by rw [e4]; exact Nat.mod_lt _ (by decide))
      (by rw [e5]; exact Nat.mod_lt _ (by decide))
    rw [e1, e2, e3, e4, e5] at h
    simp only [List.map_cons, List.sum_cons, List.foldl_cons]
    refine ⟨?_, ?_, h.2.2.1, ?_, ?_⟩
    · rw [h.1]; simp only [Nat.reducePow]; omega
    · rw [h.2.1]; simp only [Nat.reducePow]; omega
    · rw [h.2.2.2.1]; simp only [Nat.reducePow]; omega
    · rw [h.2.2.2.2]; simp only [Nat.reducePow]; omega

/-- C25: `operator+=` adds the other writer's entry count, block count,
`bytes_added` and `bytes_written` to this writer's (in `U64`, `U32`, `U64`,
`U64` arithmetic), sets the largest-uncompressed mark to the maximum of the
two and changes nothing else, so no flag, flush limit or buffer. On the five
statistics the merge is commutative and associative; merging workers into a
parent gives the same writer in whatever order they are merged, and into a
zeroed parent it gives the sums of the workers' counters, modulo the word
size, and the largest of their marks. -/
theorem merge_adds_statistics (a b c parent : OutputWriterStdOut)
    (workers : List OutputWriterStdOut)
    (hzero : parent.statistics = (0, 0, 0, 0, 0)) :
    a.addAssign b =
      { a with n_entries := (a.n_entries + b.n_entries) % 2 ^ 64
               n_blocks := (a.n_blocks + b.n_blocks) % 2 ^ 32
               l_largest_uncompressed := max a.l_largest_uncompressed b.l_largest_uncompressed
               bytes_written := (a.bytes_written + b.bytes_written) % 2 ^ 64
               bytes_added := (a.bytes_added + b.bytes_added) % 2 ^ 64 } ∧
    (a.addAssign b).statistics = (b.addAssign a).statistics ∧
    ((a.addAssign b).addAssign c).statistics = (a.addAssign (b.addAssign c)).statistics ∧
    (∀ reordered : List OutputWriterStdOut, workers.Perm reordered →
      OutputWriterStdOut.mergeAll parent workers
        = OutputWriterStdOut.mergeAll parent reordered) ∧
    (OutputWriterStdOut.mergeAll parent workers).n_entries
      = (workers.map (fun w => w.n_entries)).sum % 2 ^ 64 ∧
    (OutputWriterStdOut.mergeAll parent workers).n_blocks
      = (workers.map (fun w => w.n_blocks)).sum % 2 ^ 32 ∧
    (OutputWriterStdOut.mergeAll parent workers).l_largest_uncompressed
      = (workers.map (fun w => w.l_largest_uncompressed)).foldl max 0 ∧
    (OutputWriterStdOut.mergeAll parent workers).bytes_written
      = (workers.map (fun w => w.bytes_written)).sum % 2 ^ 64 ∧
    (OutputWriterStdOut.mergeAll parent workers).bytes_added
      = (workers.map (fun w => w.bytes_added)).sum % 2 ^ 64 := by
  simp only [OutputWriterStdOut.statistics, Prod.mk.injEq] at hzero
  obtain ⟨h1, h2, h3, h4, h5⟩ := hzero
  have hs := OutputWriterStdOut.mergeAll_statistics workers parent (by rw [h1]; decide)
    (by rw [h2]; decide) (by rw [h4]; decide) (by rw [h5]; decide)
  rw [h1, h2, h3, h4, h5] at hs
  simp only [Nat.zero_add] at hs
  refine ⟨OutputWriterStdOut.addAssign_eq a b, ?_, ?_, ?_, hs⟩
  · simp only [OutputWriterStdOut.addAssign_eq, OutputWriterStdOut.statistics, Prod.mk.injEq,
      Nat.reducePow]
    refine ⟨?_, ?_, ?_, ?_, ?_⟩ <;> omega
  · simp only [OutputWriterStdOut.addAssign_eq, OutputWriterStdOut.statistics, Prod.mk.injEq,
      Nat.reducePow]
    refine ⟨?_, ?_, ?_, ?_, ?_⟩ <;> omega
  · intro reordered hperm
    exact List.Perm.foldl_eq' hperm
      (fun x _ y _ z => OutputWriterStdOut.addAssign_right_comm z x y) parent

/-- Witness for C25: two workers merged into the zeroed sample writer, in
either order. -/
theorem merge_adds_statistics_witness :
    (OutputWriterStdOut.mergeAll sampleStdOut
      [{ sampleStdOut with n_entries := 3, l_largest_uncompressed := 7, bytes_added := 10 },
       { sampleStdOut with n_entries := 4, n_blocks := 1, bytes_added := 5 }]).statistics
      = (7, 1, 7, 0, 15) ∧
    OutputWriterStdOut.mergeAll sampleStdOut
      [{ sampleStdOut with n_entries := 3, l_largest_uncompressed := 7, bytes_added := 10 },
       { sampleStdOut with n_entries := 4, n_blocks := 1, bytes_added := 5 }]
    = OutputWriterStdOut.mergeAll sampleStdOut
      [{ sampleStdOut with n_entries := 4, n_blocks := 1, bytes_added := 5 },
       { sampleStdOut with n_entries := 3, l_largest_uncompressed := 7, bytes_added := 10 }] :=
  ⟨by decide,
   (merge_adds_statistics sampleStdOut sampleStdOut sampleStdOut sampleStdOut
      [{ sampleStdOut with n_entries := 3, l_largest_uncompressed := 7, bytes_added := 10 },
       { sampleStdOut with n_entries := 4, n_blocks := 1, bytes_added := 5 }]
      (by decide)).2.2.2.1 _ (List.Perm.swap _ _ [])⟩

end tomahawk.io
